import Mathlib

set_option linter.unusedSectionVars false

/-!
fabr: dependency queue and symbol interner.

A shallow embedding of `src/support/DependencyQueue.h` and of the symbol
handles of `src/model/Symbol.h`, with the properties proved about them.

Memory model.  `DependencyQueue<T>` keeps its jobs on the free store and refers to them by
`Job *`.  The embedding makes the free store explicit: an address is a natural
number, `new` hands out the next unused address, `delete` empties a cell and
the cell is never handed out again.  Reading or writing through a null pointer
or through a pointer to a deleted job is undefined behaviour in the source;
here such an operation has no result (`none`).
-/

namespace fabr

/-- The class `Job` of `DependencyQueue`: the task, the set `waitList` of jobs
it waits for (`std::set<Job *>`, kept without repetition) and the list `usedBy`
of jobs that wait for it (`std::list<Job *>`). -/
structure Job (T : Type) where
  task : T
  waitList : List Nat
  usedBy : List Nat
deriving DecidableEq, Repr

/-- Source `Job::isRunnable`: the wait list is empty. -/
def Job.isRunnable {T : Type} (j : Job T) : Bool := j.waitList.isEmpty

/-- Source `std::set<Job *>::insert`: nothing changes when the element is present. -/
def setInsert (s : List Nat) (p : Nat) : List Nat :=
  if p ∈ s then s else s ++ [p]

/-- Source `std::set<Job *>::erase` by value. -/
def setErase (s : List Nat) (p : Nat) : List Nat :=
  s.filter (fun x => decide (x ≠ p))

/-- Source `std::map<T, Job *>::find`, with `none` for `end()`. -/
def mapFind {T : Type} [DecidableEq T] : List (T × Nat) → T → Option Nat
  | [], _ => none
  | (k, v) :: m, t => if k = t then some v else mapFind m t

/-- The assignment `queue[task] = job` of a `std::map<T, Job *>`: the entry of
an existing key is replaced, a new key is added. -/
def mapAssign {T : Type} [DecidableEq T] : List (T × Nat) → T → Nat → List (T × Nat)
  | [], t, p => [(t, p)]
  | (k, v) :: m, t, p => if k = t then (t, p) :: m else (k, v) :: mapAssign m t p

/-- Source `std::map<T, Job *>::erase` by key. -/
def mapErase {T : Type} [DecidableEq T] (m : List (T × Nat)) (t : T) : List (T × Nat) :=
  m.filter (fun e => decide (e.1 ≠ t))

/-- The state of a `DependencyQueue<T>`: the free store holding its jobs
(`heap`, address = position, `none` = deleted), the map `queue` from task to
job and the list `runnable`. -/
structure DependencyQueue (T : Type) where
  heap : List (Option (Job T))
  queue : List (T × Nat)
  runnable : List Nat
deriving DecidableEq, Repr

/-- The targets `a`, `b`, `c` and `d` of the scenarios, as tasks. -/
inductive Target where
  | a | b | c | d
deriving DecidableEq, Repr

namespace DependencyQueue

variable {T : Type} [DecidableEq T]

/-- The default constructor `DependencyQueue()`: no job, nothing runnable. -/
def ctor : DependencyQueue T := ⟨[], [], []⟩

/-- Reading `*p`; `none` when `p` does not point to a live job. -/
def deref (q : DependencyQueue T) (p : Nat) : Option (Job T) :=
  q.heap.getD p none

/-- Writing `*p = j`. -/
def store (q : DependencyQueue T) (p : Nat) (j : Job T) : DependencyQueue T :=
  { q with heap := q.heap.set p (some j) }

/-- The expression `new Job(task)`: a job with empty `waitList` and `usedBy` at
an unused address. -/
def newJob (q : DependencyQueue T) (task : T) : DependencyQueue T × Nat :=
  ({ q with heap := q.heap ++ [some ⟨task, [], []⟩] }, q.heap.length)

/-- The statement `delete job`. -/
def deleteJob (q : DependencyQueue T) (p : Nat) : DependencyQueue T :=
  { q with heap := q.heap.set p none }

/-- Source `markRunnable(job)`: `runnable.push_back(job)`. -/
def markRunnable (q : DependencyQueue T) (job : Nat) : DependencyQueue T :=
  { q with runnable := q.runnable ++ [job] }

/-- Source `getJob(task)`; `none` is `nullptr`. -/
def getJob (q : DependencyQueue T) (task : T) : Option Nat :=
  mapFind q.queue task

/-- The private `addDependency(Job *from, Job *to)`:
`from->waitList.insert(to); to->usedBy.push_back(from);`.
A null `from` or `to` is dereferenced by one of the two statements. -/
def addDependencyJobs (q : DependencyQueue T) (fromJob toJob : Option Nat) :
    Option (DependencyQueue T) := do
  let f ← fromJob
  let t ← toJob
  let fj ← q.deref f
  let q1 := q.store f { fj with waitList := setInsert fj.waitList t }
  let tj ← q1.deref t
  pure (q1.store t { tj with usedBy := tj.usedBy ++ [f] })

/-- The body of the loop of `markComplete(job)`, run over the entries of
`job->usedBy`:
`dep->waitList.erase(job); if( dep->isRunnable() ) markRunnable(job);`
(the argument of `markRunnable` is `job`, as in the source). -/
def markCompleteLoop (q : DependencyQueue T) (job : Nat) :
    List Nat → Option (DependencyQueue T)
  | [] => some q
  | dep :: rest => do
    let dj ← q.deref dep
    let q1 := q.store dep { dj with waitList := setErase dj.waitList job }
    let dj1 ← q1.deref dep
    let q2 := if dj1.isRunnable then q1.markRunnable job else q1
    markCompleteLoop q2 job rest

/-- Source `markComplete(job)`. -/
def markComplete (q : DependencyQueue T) (job : Option Nat) :
    Option (DependencyQueue T) := do
  let p ← job
  let j ← q.deref p
  markCompleteLoop q p j.usedBy

/-- Source `queueJob(task)`: a job without dependencies. -/
def queueJob (q : DependencyQueue T) (task : T) : DependencyQueue T :=
  let (q1, job) := q.newJob task
  let q2 := { q1 with queue := mapAssign q1.queue task job }
  q2.markRunnable job

/-- The loop of `queueJob(task, begin, end)`:
`addDependency( job, getJob(*begin) )` for every element of the range. -/
def queueJobLoop (q : DependencyQueue T) (job : Nat) :
    List T → Option (DependencyQueue T)
  | [] => some q
  | d :: rest => do
    let q1 ← q.addDependencyJobs (some job) (q.getJob d)
    queueJobLoop q1 job rest

/-- Source `queueJob(task, begin, end)`, the range given as the list of its
elements. -/
def queueJobDeps (q : DependencyQueue T) (task : T) (deps : List T) :
    Option (DependencyQueue T) := do
  let (q1, job) := q.newJob task
  let q2 := { q1 with queue := mapAssign q1.queue task job }
  let q3 ← queueJobLoop q2 job deps
  let j ← q3.deref job
  pure (if j.isRunnable then q3.markRunnable job else q3)

/-- The public `addDependency(fromTask, toTask)`.  The source writes
`runnable.erase(fromJob)`, handing the element to a member that takes an
iterator; it is read as the removal of that element from the list
(`std::list::remove`). -/
def addDependency (q : DependencyQueue T) (fromTask toTask : T) :
    Option (DependencyQueue T) := do
  let fromJob := q.getJob fromTask
  let toJob := q.getJob toTask
  let f ← fromJob
  let fj ← q.deref f
  let q1 := if fj.isRunnable
    then { q with runnable := q.runnable.filter (fun x => decide (x ≠ f)) }
    else q
  q1.addDependencyJobs fromJob toJob

/-- Source `dequeueJob()`: `front()` of an empty list and `job->task` of a deleted job
are undefined. -/
def dequeueJob (q : DependencyQueue T) : Option (T × DependencyQueue T) :=
  match q.runnable with
  | [] => none
  | job :: rest => do
    let j ← q.deref job
    pure (j.task, { q with runnable := rest })

/-- Source `jobCompleted(task)`. -/
def jobCompleted (q : DependencyQueue T) (task : T) : Option (DependencyQueue T) := do
  let job := q.getJob task
  let q1 ← q.markComplete job
  let q2 := { q1 with queue := mapErase q1.queue task }
  let p ← job
  pure (q2.deleteJob p)

/-- Source `isQueued(task)`. -/
def isQueued (q : DependencyQueue T) (task : T) : Bool := (q.getJob task).isSome

/-- Source `empty()`. -/
def empty (q : DependencyQueue T) : Bool := q.queue.isEmpty

/-- Source `size()`. -/
def size (q : DependencyQueue T) : Nat := q.queue.length

/-- Source `hasRunnable()`. -/
def hasRunnable (q : DependencyQueue T) : Bool := !q.runnable.isEmpty

/-- Source `getRunnableCount()`. -/
def getRunnableCount (q : DependencyQueue T) : Nat := q.runnable.length

/-- Modelled from the spec: the drain of the queue by its caller
(`BuildExecutor::execute` is declared in `BuildExecutor.h` and defined in no
file under `src/`), the loop
`while hasRunnable(): t = dequeueJob(); jobCompleted(t)`, run for at most
`fuel` rounds; it gives the tasks handed out, in order, and the queue it stops
in, and `none` when a call is undefined. -/
def drain : Nat → DependencyQueue T → Option (List T × DependencyQueue T)
  | 0, q => some ([], q)
  | fuel + 1, q =>
    if q.hasRunnable then do
      let (t, q1) ← q.dequeueJob
      let q2 ← q1.jobCompleted t
      let (ts, q3) ← drain fuel q2
      pure (t :: ts, q3)
    else some ([], q)

/-! ### Representation invariant -/

/-- Well-formed queue states: the keys of the map are distinct, every entry of
the map points to a live job carrying that key as its task, and every live job
of the runnable list has an empty wait list. -/
def WF (q : DependencyQueue T) : Prop :=
  (q.queue.map Prod.fst).Nodup ∧
  (∀ e ∈ q.queue, (q.deref e.2).map Job.task = some e.1) ∧
  (∀ p ∈ q.runnable, ∀ j ∈ q.deref p, j.waitList = [])

instance (q : DependencyQueue T) : Decidable (WF q) := by
  unfold WF; infer_instance

/-- The job at `p` after the wait edge `f → t` has been added. -/
def addEdge (f t p : Nat) (j : Job T) : Job T :=
  { task := j.task
    waitList := if p = f then setInsert j.waitList t else j.waitList
    usedBy := if p = t then j.usedBy ++ [f] else j.usedBy }

/-- The job at `p` after the wait edges from `f` to each of `ts` have been
added, in that order. -/
def addEdges (f : Nat) : List Nat → Nat → Job T → Job T
  | [], _, j => j
  | t :: ts, p, j => addEdges f ts p (addEdge f t p j)

/-- The job at `p` after `job` has been erased from the wait lists of the jobs
`deps`. -/
def dropEdge (job : Nat) (deps : List Nat) (p : Nat) (j : Job T) : Job T :=
  { task := j.task
    waitList := if p ∈ deps then setErase j.waitList job else j.waitList
    usedBy := j.usedBy }

/-! ### Runs of the queue -/

/-- What has happened to a queue so far, by job (a job is named by its
address, which no later job shares): `unblocked` lists the jobs in the order in
which they were appended to the runnable list, `handed` the jobs in the order
in which `dequeueJob` returned them, `declared` the wait edges `(from, to)`
given to `queueJob` or `addDependency`, `completed` the jobs passed to
`jobCompleted`. -/
structure History where
  unblocked : List Nat
  handed : List Nat
  declared : List (Nat × Nat)
  completed : List Nat
deriving DecidableEq, Repr

/-- The states a queue reaches from construction through `queueJob`,
`addDependency`, `dequeueJob` and `jobCompleted`, each called within its
precondition and with a defined result, together with the history of the run.
The preconditions: the task given to `queueJob` is not queued and its
dependencies are; both tasks given to `addDependency` are queued;
`hasRunnable()` holds before `dequeueJob`; the task given to `jobCompleted` is
queued and its job has been handed out by `dequeueJob`. -/
inductive Reach : DependencyQueue T → History → Prop
  | ctor : Reach ctor ⟨[], [], [], []⟩
  | queueJob {q : DependencyQueue T} {h : History} (task : T) :
      Reach q h → q.isQueued task = false →
      Reach (q.queueJob task) { h with unblocked := h.unblocked ++ [q.heap.length] }
  | queueJobDeps {q q' : DependencyQueue T} {h : History} (task : T) (deps : List T) :
      Reach q h → q.isQueued task = false → (∀ d ∈ deps, q.isQueued d = true) →
      q.queueJobDeps task deps = some q' →
      Reach q' { h with
        unblocked := h.unblocked ++ q'.runnable.drop q.runnable.length
        declared := h.declared ++
          (deps.filterMap q.getJob).map (fun d => (q.heap.length, d)) }
  | addDependency {q q' : DependencyQueue T} {h : History} (fromTask toTask : T)
      (pf pt : Nat) :
      Reach q h → q.getJob fromTask = some pf → q.getJob toTask = some pt →
      q.addDependency fromTask toTask = some q' →
      Reach q' { h with declared := h.declared ++ [(pf, pt)] }
  | dequeueJob {q q' : DependencyQueue T} {h : History} (t : T) (p : Nat) :
      Reach q h → q.hasRunnable = true → q.runnable.head? = some p →
      q.dequeueJob = some (t, q') →
      Reach q' { h with handed := h.handed ++ [p] }
  | jobCompleted {q q' : DependencyQueue T} {h : History} (task : T) (p : Nat) :
      Reach q h → q.getJob task = some p → p ∈ h.handed →
      q.jobCompleted task = some q' →
      Reach q' { h with
        unblocked := h.unblocked ++ q'.runnable.drop q.runnable.length
        completed := h.completed ++ [p] }

/-- Runs of `dequeueJob` and `jobCompleted` calls, each within its
precondition and with a defined result: `Drains q out q' out'` leads from `q`
to `q'`, where `out` and `out'` list the jobs that have been handed out by
`dequeueJob` and not yet passed to `jobCompleted`. -/
inductive Drains : DependencyQueue T → List Nat → DependencyQueue T → List Nat → Prop
  | done (q : DependencyQueue T) (out : List Nat) : Drains q out q out
  | dequeueJob {q q1 q' : DependencyQueue T} {out out' : List Nat} (t : T) (p : Nat) :
      q.hasRunnable = true → q.runnable.head? = some p →
      q.dequeueJob = some (t, q1) →
      Drains q1 (p :: out) q' out' → Drains q out q' out'
  | jobCompleted {q q1 q' : DependencyQueue T} {out out' : List Nat} (task : T) (p : Nat) :
      q.getJob task = some p → p ∈ out →
      q.jobCompleted task = some q1 →
      Drains q1 (out.filter (fun x => decide (x ≠ p))) q' out' → Drains q out q' out'

/-- The jobs `c` block one another: there is at least one, and each of them is
live and queued under its task, is neither in the runnable list nor among the
jobs `out` handed out, and has a job of `c` in its wait list.  The jobs on a
dependency cycle none of which has been handed out form such a set. -/
def Stuck (q : DependencyQueue T) (out c : List Nat) : Prop :=
  c ≠ [] ∧ ∀ p ∈ c, p ∉ q.runnable ∧ p ∉ out ∧
    ∃ j ∈ q.deref p, q.getJob j.task = some p ∧ ∃ d ∈ j.waitList, d ∈ c

instance (q : DependencyQueue T) (out c : List Nat) : Decidable (Stuck q out c) := by
  unfold Stuck; infer_instance

/-- The invariant of reachable states: the queue is well formed; every job
that has been appended to the runnable list, and the source of every declared
wait edge, has an address below the next unused one; every declared wait edge
of a live job is still in its wait list unless its target has been passed to
`jobCompleted`; the jobs handed out followed by the runnable list are a
subsequence of the jobs in the order they became runnable; and a live job
became runnable at most once. -/
def Inv (q : DependencyQueue T) (h : History) : Prop :=
  WF q ∧
  (∀ p ∈ h.unblocked, p < q.heap.length) ∧
  (∀ e ∈ h.declared, e.1 < q.heap.length) ∧
  (∀ p, ∀ j ∈ q.deref p, ∀ d, (p, d) ∈ h.declared → d ∈ j.waitList ∨ d ∈ h.completed) ∧
  (h.handed ++ q.runnable).Sublist h.unblocked ∧
  (∀ p, (q.deref p).isSome → h.unblocked.count p ≤ 1)

end DependencyQueue

/-! ### Symbols -/

/-- The bytes `str[0 .. len)` given to `Symbol::get`. -/
abbrev ByteString := List (Fin 256)

/-- The symbols constructed so far, in the order of their construction; a
`Symbol *` is the position of the symbol in this list.  Symbols are never
freed. -/
abbrev SymbolPool := List ByteString

/-- Modelled from the spec: the search of `Symbol::get` for an existing symbol,
for which `src/` has no definition.  It gives the position of the first symbol
of the pool with the contents `str`, the length of the pool when there is
none. -/
def Symbol.position (str : ByteString) : SymbolPool → Nat
  | [] => 0
  | s :: rest => if s = str then 0 else Symbol.position str rest + 1

/-- Modelled from the spec: `Symbol::get`, which `Symbol.h` declares and no
file under `src/` defines.  Its comment and the contract of the interner: "If
there is an existing symbol with the given string contents, return that
symbol. Otherwise contruct a new symbol and return it"; there is no removal. -/
def Symbol.get (pool : SymbolPool) (str : ByteString) : Nat × SymbolPool :=
  if str ∈ pool then (Symbol.position str pool, pool) else (pool.length, pool ++ [str])

/-- The class `SymbolRef`: the pointer `sym`, `none` for `nullptr`. -/
structure SymbolRef where
  sym : Option Nat
deriving DecidableEq, Repr

namespace SymbolRef

/-- Source `SymbolRef::get(str, len)`: `return Symbol::get(str, len);`, through the
private constructor `SymbolRef(Symbol *s) : sym(s)`.  The other overloads of
`get` pass the same bytes. -/
def get (pool : SymbolPool) (str : ByteString) : SymbolRef × SymbolPool :=
  (⟨some (Symbol.get pool str).1⟩, (Symbol.get pool str).2)

/-- Source `operator ==`: `sym == ref.sym`. -/
def eq (r ref : SymbolRef) : Bool := decide (r.sym = ref.sym)

/-- Source `operator !=`: `sym != ref.sym`. -/
def ne (r ref : SymbolRef) : Bool := decide (r.sym ≠ ref.sym)

end SymbolRef

/-- The pool after `SymbolRef::get` has been called on each of `strs` in
turn. -/
def internAll (pool : SymbolPool) (strs : List ByteString) : SymbolPool :=
  strs.foldl (fun p str => (SymbolRef.get p str).2) pool

namespace SymbolRef

/-- The default constructor `SymbolRef() : sym(nullptr)`: the empty (null)
handle. -/
def null : SymbolRef := ⟨none⟩

/-- Source `explicit operator bool()`: `return sym != nullptr;`. -/
def toBool (r : SymbolRef) : Bool := decide (r.sym ≠ none)

/-- Source `isNull()`: `return sym != nullptr;`. -/
def isNull (r : SymbolRef) : Bool := decide (r.sym ≠ none)

end SymbolRef

/-! ### The host -/

/-- What a call raises: `std::system_error` with its error code, or the
`std::out_of_range` of `std::string::erase`. -/
inductive Exn where
  | system_error (code : Int)
  | out_of_range
deriving DecidableEq, Repr

/-- How a call ends: it returns a value or raises. -/
inductive Outcome (α : Type) where
  | returned (value : α)
  | raised (e : Exn)
deriving DecidableEq, Repr

/-- The outcome with `f` applied to the value returned. -/
def Outcome.map {α β : Type} (f : α → β) : Outcome α → Outcome β
  | .returned a => .returned (f a)
  | .raised e => .raised e

/-- How a system call ends: with its result, or with -1 and `errno` set. -/
inductive Sys (α : Type) where
  | ok (value : α)
  | fail (errno : Int)
deriving DecidableEq, Repr

/-- What `Path.cpp` takes from the host: the `errno` values and the `st_mode`
bits it names (`<errno.h>`, `<sys/stat.h>`; `S_IFMT` is the file-type mask of
the same header), and the system calls `access(name, F_OK)`, `stat(name, &st)`,
which gives `st.st_mode`, and `getcwd`, as functions of the path name. -/
structure Host where
  EACCES : Int
  ELOOP : Int
  ENAMETOOLONG : Int
  ENOENT : Int
  ENOTDIR : Int
  S_IFMT : Nat
  S_IFREG : Nat
  S_IFDIR : Nat
  access : List Char → Sys Unit
  stat : List Char → Sys Nat
  getcwd : Sys (List Char)

/-- A Linux host with the given file system: `EACCES` 13, `ELOOP` 40,
`ENAMETOOLONG` 36, `ENOENT` 2, `ENOTDIR` 20, `S_IFMT` 0170000, `S_IFREG`
0100000, `S_IFDIR` 0040000. -/
def Host.linux (access : List Char → Sys Unit) (stat : List Char → Sys Nat)
    (getcwd : Sys (List Char)) : Host :=
  { EACCES := 13, ELOOP := 40, ENAMETOOLONG := 36, ENOENT := 2, ENOTDIR := 20
    S_IFMT := 0o170000, S_IFREG := 0o100000, S_IFDIR := 0o040000
    access := access, stat := stat, getcwd := getcwd }

/-- The Linux host on which every `access` and `stat` fails with `errno`
`e`, in the directory `cwd`. -/
def Host.failing (e : Int) (cwd : List Char) : Host :=
  Host.linux (fun _ => .fail e) (fun _ => .fail e) (.ok cwd)

/-- The Linux host on which every path exists and `stat` gives the mode
`st_mode`. -/
def Host.withMode (st_mode : Nat) : Host :=
  Host.linux (fun _ => .ok ()) (fun _ => .ok st_mode) (.ok [])

/-- The Linux host whose only file is the regular file `/a/BUILD` (mode
0100644; every other `access` and `stat` fails with `ENOENT`), in the
directory `/a`. -/
def Host.sourceTree : Host :=
  Host.linux
    (fun n => if n = "/a/BUILD".toList then .ok () else .fail 2)
    (fun n => if n = "/a/BUILD".toList then .ok 0o100644 else .fail 2)
    (.ok "/a".toList)

/-! ### Paths -/

/-- The class `Path`: the string `name`, as the list of its characters. -/
structure Path where
  name : List Char
deriving DecidableEq, Repr

namespace Path

/-- The constant `Path::Separator` of a host that is not `WIN32`. -/
def Separator : Char := '/'

/-- The character `str[i]` of a `std::string`, which is the terminating null
for `i = str.size()`. -/
def charAt (str : List Char) (i : Nat) : Char := str.getD i (Char.ofNat 0)

/-- The C library's `isalpha` in the C locale. -/
def isalpha (c : Char) : Bool := c.isAlpha

/-- Source `isUnixRoot(str)`. -/
def isUnixRoot (str : List Char) : Bool :=
  str.length == 1 && charAt str 0 == Separator

/-- Source `isVolumePrefix(str)`: a volume prefix such as "C:". -/
def isVolumePrefix (str : List Char) : Bool :=
  str.length == 2 && charAt str 1 == ':' && isalpha (charAt str 0)

/-- Source `isVolumeRoot(str)`: a volume root directory. -/
def isVolumeRoot (str : List Char) : Bool :=
  str.length == 3 && charAt str 2 == Separator && charAt str 1 == ':' && isalpha (charAt str 0)

/-- Source `hasUnixRoot(str)`. -/
def hasUnixRoot (str : List Char) : Bool :=
  str.length > 0 && charAt str 0 == Separator

/-- Source `hasVolumePrefix(str)`. -/
def hasVolumePrefix (str : List Char) : Bool :=
  str.length ≥ 2 && charAt str 1 == ':' && isalpha (charAt str 0)

/-- Source `hasVolumeRoot(str)`. -/
def hasVolumeRoot (str : List Char) : Bool :=
  str.length ≥ 3 && charAt str 2 == Separator && charAt str 1 == ':' && isalpha (charAt str 0)

/-- Source `needSlashBeforeAppend(name)`. -/
def needSlashBeforeAppend (name : List Char) : Bool :=
  !name.isEmpty && charAt name (name.length - 1) != Separator && !isVolumePrefix name

/-- The loop of `appendNormalisedPath` from index `i` on, over the characters
of `str` still to come: a slash of either kind becomes the separator, and is
dropped at index 0 unless the target is empty. -/
def appendLoop : List Char → Nat → List Char → List Char
  | target, _, [] => target
  | target, i, c :: rest =>
    appendLoop
      (if c == '/' || c == '\\' then
        (if i != 0 || target.isEmpty then target ++ [Separator] else target)
      else target ++ [c])
      (i + 1) rest

/-- Source `appendNormalisedPath(target, str)`; the result is the new value of
`target`. -/
def appendNormalisedPath (target str : List Char) : List Char :=
  if str.isEmpty then target
  else
    let t1 := if needSlashBeforeAppend target then target ++ [Separator] else target
    let t2 := appendLoop t1 0 str
    if t2.length > 1 && charAt t2 (t2.length - 1) == Separator && !isVolumeRoot t2
    then t2.dropLast else t2

/-- The default constructor `Path()`. -/
def empty : Path := ⟨[]⟩

/-- The constructor `Path(pathname)`. -/
def ofString (pathname : List Char) : Path := ⟨appendNormalisedPath [] pathname⟩

/-- Source `str()`. -/
def str (p : Path) : List Char := p.name

/-- Source `push_back(component)`. -/
def push_back (p : Path) (component : List Char) : Path :=
  ⟨appendNormalisedPath p.name component⟩

/-- Source `operator +(component)`. -/
def add (p : Path) (component : List Char) : Path := p.push_back component

/-- The position of the last `c` among the characters of `s` from position `i`
on, `acc` when there is none. -/
def findLastFrom (c : Char) : List Char → Nat → Option Nat → Option Nat
  | [], _, acc => acc
  | x :: rest, i, acc => findLastFrom c rest (i + 1) (if x = c then some i else acc)

/-- The call `name.find_last_of(c)`, with `none` for `npos`. -/
def find_last_of (s : List Char) (c : Char) : Option Nat := findLastFrom c s 0 none

/-- The call `name.erase(index)`: the characters from `index` on are removed;
`std::out_of_range` when `index` is past the end. -/
def erase (s : List Char) (index : Nat) : Outcome (List Char) :=
  if index > s.length then .raised .out_of_range else .returned (s.take index)

/-- Source `dirname()`: the `std::string_view` of the first `idx + 1`, `idx` or
2 characters of `name`, or the empty string. -/
def dirname (p : Path) : List Char :=
  match find_last_of p.name Separator with
  | some idx =>
    if idx == 0 || (idx == 2 && hasVolumeRoot p.name)
    then p.name.take (idx + 1)
    else p.name.take idx
  | none =>
    if hasVolumePrefix p.name then p.name.take 2
    else []

/-- Source `pop_back()`; the path returned is the new value of the object. -/
def pop_back (p : Path) : Outcome Path :=
  match find_last_of p.name Separator with
  | some idx =>
    if idx == 0 || (idx == 2 && hasVolumeRoot p.name)
    then (erase p.name (idx + 1)).map Path.mk
    else (erase p.name idx).map Path.mk
  | none =>
    if hasVolumePrefix p.name then (erase p.name 2).map Path.mk
    else .returned ⟨[]⟩

/-- Source `hasComponents()`. -/
def hasComponents (p : Path) : Bool :=
  !p.name.isEmpty && !isUnixRoot p.name && !isVolumeRoot p.name && !isVolumePrefix p.name

/-- Source `isAbsolute()`. -/
def isAbsolute (p : Path) : Bool := hasUnixRoot p.name || hasVolumeRoot p.name

/-- Source `isRoot()`. -/
def isRoot (p : Path) : Bool := isUnixRoot p.name || isVolumeRoot p.name

/-- Source `handlePathError(err)`, with the value of `errno` that the `throw`
reads. -/
def handlePathError (h : Host) (errno err : Int) : Outcome Bool :=
  if err = h.EACCES ∨ err = h.ELOOP ∨ err = h.ENAMETOOLONG ∨ err = h.ENOENT ∨
      err = h.ENOTDIR
  then .returned false
  else .raised (.system_error errno)

/-- Source `exists()`. -/
def «exists» (h : Host) (p : Path) : Outcome Bool :=
  match h.access p.name with
  | .fail errno => handlePathError h errno errno
  | .ok _ => .returned true

/-- Source `isFile()`: `(st.st_mode & S_IFREG) != 0` when `stat` succeeds. -/
def isFile (h : Host) (p : Path) : Outcome Bool :=
  match h.stat p.name with
  | .fail errno => handlePathError h errno errno
  | .ok st_mode => .returned ((st_mode &&& h.S_IFREG) != 0)

/-- Source `isDirectory()`: `(st.st_mode & S_IFDIR) != 0` when `stat` succeeds. -/
def isDirectory (h : Host) (p : Path) : Outcome Bool :=
  match h.stat p.name with
  | .fail errno => handlePathError h errno errno
  | .ok st_mode => .returned ((st_mode &&& h.S_IFDIR) != 0)

/-- The body shared by `exists(pathname)`, `isFile(pathname)` and
`isDirectory(pathname)`, for the check `check` made on the extended name:
```
size_t idx = name.size();
try { appendNormalisedPath(name, pathname); bool result = check();
      name.erase(idx); return result; }
catch (...) { name.erase(idx); std::rethrow_exception(std::current_exception()); }
```
It gives the outcome of the call and the value of `name` it leaves.  An
`erase` that raises inside the `try` is caught like any other exception; one
that raises inside the handler leaves the function. -/
def checkAppended (check : Path → Outcome Bool) (p : Path) (pathname : List Char) :
    Outcome Bool × Path :=
  let idx := p.name.length
  let name1 := appendNormalisedPath p.name pathname
  let tried : Outcome Bool × List Char :=
    match check ⟨name1⟩ with
    | .returned result =>
      match erase name1 idx with
      | .returned name2 => (.returned result, name2)
      | .raised e => (.raised e, name1)
    | .raised e => (.raised e, name1)
  match tried with
  | (.returned result, name2) => (.returned result, ⟨name2⟩)
  | (.raised e, name2) =>
    match erase name2 idx with
    | .returned name3 => (.raised e, ⟨name3⟩)
    | .raised e2 => (.raised e2, ⟨name2⟩)

/-- Source `exists(pathname)`, with the path it leaves. -/
def existsAt (h : Host) (p : Path) (pathname : List Char) : Outcome Bool × Path :=
  checkAppended («exists» h) p pathname

/-- Source `isFile(pathname)`, with the path it leaves. -/
def isFileAt (h : Host) (p : Path) (pathname : List Char) : Outcome Bool × Path :=
  checkAppended (isFile h) p pathname

/-- Source `isDirectory(pathname)`, with the path it leaves. -/
def isDirectoryAt (h : Host) (p : Path) (pathname : List Char) : Outcome Bool × Path :=
  checkAppended (isDirectory h) p pathname

/-- Source `getCurrentDir()`. -/
def getCurrentDir (h : Host) : Outcome Path :=
  match h.getcwd with
  | .fail errno => .raised (.system_error errno)
  | .ok buf => .returned (ofString buf)

end Path

/-! ### The driver -/

/-- The macro `BUILD_FILENAME` of `Constants.h`. -/
def BUILD_FILENAME : List Char := "BUILD".toList

/-- The macro `BUILD_CACHEDMODEL` of `Constants.h`. -/
def BUILD_CACHEDMODEL : List Char := ".build/model".toList

/-- How a run of `findRoots` ends: it returns `value` after `model.load(loaded)`,
it raises, it leaves the loop and reaches the end of the function, which has no
`return` there, or it is still in the loop when the fuel is used up. -/
inductive FindRoots where
  | returned (value : Bool) (loaded : Path)
  | raised (e : Exn)
  | noReturn
  | running
deriving DecidableEq, Repr

/-- The `do ... while(!path.isRoot())` loop of `findRoots`, for at most `fuel`
rounds, from the values of `path` and `topSourceDir`. -/
def findRootsLoop (h : Host) : Nat → Path → Path → FindRoots
  | 0, _, _ => .running
  | fuel + 1, path, topSourceDir =>
    match Path.isFileAt h path BUILD_CACHEDMODEL with
    | (.raised e, _) => .raised e
    | (.returned true, path1) => .returned true (path1.add BUILD_CACHEDMODEL)
    | (.returned false, path1) =>
      match Path.isFileAt h path1 BUILD_FILENAME with
      | (.raised e, _) => .raised e
      | (.returned found, path2) =>
        let topSourceDir1 := if found then path2 else topSourceDir
        if !path2.isRoot then findRootsLoop h fuel path2 topSourceDir1
        else .noReturn

/-- Source `findRoots(model)`, for at most `fuel` rounds of its loop. -/
def findRoots (h : Host) (fuel : Nat) : FindRoots :=
  match Path.getCurrentDir h with
  | .raised e => .raised e
  | .returned path => findRootsLoop h fuel path Path.empty

/-- The enumeration `ExitCode`. -/
inductive ExitCode where
  | EXITCODE_OK
  | EXITCODE_USER
  | EXITCODE_NOBUILD
  | EXITCODE_BADBUILD
  | EXITCODE_NOTARGET
deriving DecidableEq, Repr

/-- The value of an enumerator, which is what the cast `(int)` gives. -/
def ExitCode.toInt : ExitCode → Int
  | .EXITCODE_OK => 0
  | .EXITCODE_USER => 1
  | .EXITCODE_NOBUILD => 2
  | .EXITCODE_BADBUILD => 3
  | .EXITCODE_NOTARGET => 4

/-- Source `Options::parse(argc, argv)`, for the option characters `opts` that
the successive calls of `getopt_long` return before -1: `h` returns
`EXITCODE_OK`; when the options are used up control reaches the end of the
function, which has no `return` there (`none`). -/
def Options.parse : List Char → Option ExitCode
  | [] => none
  | opt :: rest => if opt = 'h' then some .EXITCODE_OK else Options.parse rest

/-- Source `Driver::run(argc, argv)`, for the value `parsed` that
`options.parse(argc, argv)` gave: a status other than `EXITCODE_OK` is
returned; after `EXITCODE_OK` control reaches the end of the function, which
has no `return` there (`none`). -/
def Driver.run (parsed : Option ExitCode) : Option ExitCode :=
  match parsed with
  | none => none
  | some status => if status ≠ .EXITCODE_OK then some status else none

/-- Source `main(argc, argv)`: `return (int)driver.run(argc, argv);`. -/
def main (parsed : Option ExitCode) : Option Int :=
  (Driver.run parsed).map ExitCode.toInt

/-! ### Files -/

/-- The class `File`: the descriptor `fd`. -/
structure File where
  fd : Int
deriving DecidableEq, Repr

namespace File

/-- The constructor `File(int fd = -1)` without argument. -/
def invalid : File := ⟨-1⟩

/-- Source `isValid()`. -/
def isValid (f : File) : Bool := f.fd != -1

/-- Source `take()`: the descriptor returned and the file left. -/
def take (f : File) : Int × File := (f.fd, ⟨-1⟩)

/-- The move constructor `File(File &&f)`: the new file and what is left of
`f`. -/
def move (f : File) : File × File := (⟨f.fd⟩, ⟨-1⟩)

/-- The destructor `~File()`: `if( fd == -1 ) { close(fd); fd = -1; }`.  It
gives the descriptors passed to `close`, in order. -/
def destroy (f : File) : List Int :=
  if f.fd == -1 then [f.fd] else []

end File

/-! ### Properties of the build model -/

/-- Modelled from the spec: the property set of `BuildModel`, whose members
`BuildModel.h` declares and no file under `src/` defines.  A property maps a
name to a value and carries the flag `hard` "distinguishing user-forced values
from derived/default values". -/
structure BuildModel where
  property : List Char → Option (List Char × Bool)

namespace BuildModel

/-- Modelled from the spec: the constructor `BuildModel()`, "constructed
empty". -/
def init : BuildModel := ⟨fun _ => none⟩

/-- Modelled from the spec: `BuildModel::setProperty(name, value, hard)`, which
`src/` does not define.  "If hard, the property is treated as an underivable
input regardless of the model"; "a hard property is never overwritten by
model-derived resolution; a non-hard property may be replaced by either
resolution or by a later hard set": a hard set always takes effect, a non-hard
set takes effect unless the property is hard. -/
def setProperty (m : BuildModel) (name value : List Char) (hard : Bool) : BuildModel :=
  if hard then ⟨fun n => if n = name then some (value, true) else m.property n⟩
  else
    match m.property name with
    | some (_, true) => m
    | _ => ⟨fun n => if n = name then some (value, false) else m.property n⟩

/-- Modelled from the spec: `BuildModel::clearProperty(name, hard)`, which
`src/` does not define.  "Clear the given property, if previously set. If hard,
this will clear a hard set property, otherwise it will only clear a non-hard
property." -/
def clearProperty (m : BuildModel) (name : List Char) (hard : Bool) : BuildModel :=
  if hard then ⟨fun n => if n = name then none else m.property n⟩
  else
    match m.property name with
    | some (_, true) => m
    | _ => ⟨fun n => if n = name then none else m.property n⟩

/-- Modelled from the spec: what `BuildModel::resolve()`, which `src/` does not
define, does to the properties, for the values `derived` that resolution
derives from the model: each replaces a property that is not hard. -/
def resolve (m : BuildModel) (derived : List (List Char × List Char)) : BuildModel :=
  derived.foldl (fun m d => m.setProperty d.1 d.2 false) m

/-- The value of the property `name`. -/
def value (m : BuildModel) (name : List Char) : Option (List Char) :=
  (m.property name).map Prod.fst

end BuildModel

/-- A call that may change the properties of a build model. -/
inductive PropertyCall where
  | setProperty (name value : List Char) (hard : Bool)
  | clearProperty (name : List Char) (hard : Bool)
  | resolve (derived : List (List Char × List Char))

/-- The model after the call. -/
def BuildModel.call (m : BuildModel) : PropertyCall → BuildModel
  | .setProperty name value hard => m.setProperty name value hard
  | .clearProperty name hard => m.clearProperty name hard
  | .resolve derived => m.resolve derived

/-- The call is a hard `setProperty` or a hard `clearProperty` of `name`. -/
def PropertyCall.isHardOn (name : List Char) : PropertyCall → Bool
  | .setProperty n _ hard => hard && decide (n = name)
  | .clearProperty n hard => hard && decide (n = name)
  | .resolve _ => false

end fabr


namespace fabr

/-! ## Lists, sets and maps -/

theorem getD_set_none {α : Type} (l : List (Option α)) (p p' : Nat) (v : Option α)
    (h : p < l.length) :
    (l.set p v).getD p' none = if p' = p then v else l.getD p' none := by
  simp only [List.getD_eq_getElem?_getD, List.getElem?_set]
  by_cases h1 : p' = p
  · subst h1; simp [h]
  · have h2 : ¬ p = p' := fun e => h1 e.symm
    simp [h1, h2]

theorem getD_append_singleton {α : Type} (l : List (Option α)) (p' : Nat) (v : Option α) :
    (l ++ [v]).getD p' none = if p' = l.length then v else l.getD p' none := by
  simp only [List.getD_eq_getElem?_getD]
  split_ifs with h1
  · subst h1; simp
  · rcases Nat.lt_or_gt_of_ne h1 with h | h
    · rw [List.getElem?_append_left h]
    · rw [List.getElem?_eq_none (by simp; omega), List.getElem?_eq_none (by omega)]

theorem lt_length_of_getD {α : Type} (l : List (Option α)) (p : Nat) (j : α)
    (h : l.getD p none = some j) : p < l.length := by
  by_contra hc
  rw [List.getD_eq_getElem?_getD, List.getElem?_eq_none (by omega)] at h
  simp at h

theorem mem_setInsert (s : List Nat) (p x : Nat) :
    x ∈ setInsert s p ↔ x ∈ s ∨ x = p := by
  unfold setInsert
  split_ifs with h
  · constructor
    · exact Or.inl
    · rintro (h1 | h1)
      · exact h1
      · subst h1; exact h
  · simp

theorem setInsert_ne_nil (s : List Nat) (p : Nat) : setInsert s p ≠ [] := by
  intro h
  have : p ∈ setInsert s p := (mem_setInsert s p p).2 (Or.inr rfl)
  rw [h] at this
  exact List.not_mem_nil _ this

theorem mem_setErase (s : List Nat) (p x : Nat) :
    x ∈ setErase s p ↔ x ∈ s ∧ x ≠ p := by
  simp [setErase]

theorem setErase_setErase (s : List Nat) (p : Nat) :
    setErase (setErase s p) p = setErase s p := by
  simp [setErase, List.filter_filter]

theorem setErase_nil_of_nil (p : Nat) : setErase [] p = [] := rfl

section Map

variable {T : Type} [DecidableEq T]

theorem mapFind_mem {m : List (T × Nat)} {t : T} {p : Nat}
    (h : mapFind m t = some p) : (t, p) ∈ m := by
  induction m with
  | nil => simp [mapFind] at h
  | cons e m ih =>
    obtain ⟨k, v⟩ := e
    simp only [mapFind] at h
    split_ifs at h with hk
    · subst hk; simp at h; subst h; simp
    · exact List.mem_cons_of_mem _ (ih h)

theorem mapFind_eq_none {m : List (T × Nat)} {t : T} :
    mapFind m t = none ↔ t ∉ m.map Prod.fst := by
  induction m with
  | nil => simp [mapFind]
  | cons e m ih =>
    obtain ⟨k, v⟩ := e
    simp only [mapFind, List.map_cons, List.mem_cons]
    split_ifs with hk
    · subst hk; simp
    · rw [ih]
      constructor
      · rintro h (h1 | h1)
        · exact hk h1.symm
        · exact h h1
      · intro h h1; exact h (Or.inr h1)

theorem mapFind_of_mem {m : List (T × Nat)} {t : T} {p : Nat}
    (hn : (m.map Prod.fst).Nodup) (h : (t, p) ∈ m) : mapFind m t = some p := by
  induction m with
  | nil => simp at h
  | cons e m ih =>
    obtain ⟨k, v⟩ := e
    simp only [List.map_cons, List.nodup_cons] at hn
    simp only [mapFind]
    rcases List.mem_cons.1 h with h1 | h1
    · cases h1; simp
    · have hk : k ≠ t := by
        rintro rfl
        exact hn.1 (List.mem_map.2 ⟨(k, p), h1, rfl⟩)
      simp [hk, ih hn.2 h1]

theorem mapFind_mapAssign (m : List (T × Nat)) (t u : T) (p : Nat) :
    mapFind (mapAssign m t p) u = if u = t then some p else mapFind m u := by
  induction m with
  | nil =>
    simp only [mapAssign, mapFind]
    by_cases h : u = t
    · subst h; simp
    · have : ¬ t = u := fun e => h e.symm
      simp [h, this]
  | cons e m ih =>
    obtain ⟨k, v⟩ := e
    simp only [mapAssign]
    by_cases hk : k = t
    · subst hk
      simp only [if_true, mapFind]
      by_cases h : u = k
      · subst h; simp
      · have : ¬ k = u := fun e => h e.symm
        simp [h, this]
    · simp only [hk, if_false, mapFind, ih]
      by_cases h : k = u
      · subst h; simp [hk]
      · simp [h]

theorem mapAssign_length {m : List (T × Nat)} {t : T} (p : Nat)
    (h : mapFind m t = none) : (mapAssign m t p).length = m.length + 1 := by
  induction m with
  | nil => simp [mapAssign]
  | cons e m ih =>
    obtain ⟨k, v⟩ := e
    simp only [mapFind] at h
    split_ifs at h with hk
    simp [mapAssign, hk, ih h]

theorem mem_mapAssign {m : List (T × Nat)} {t : T} {p : Nat} {e : T × Nat}
    (h : e ∈ mapAssign m t p) : e = (t, p) ∨ e ∈ m := by
  induction m with
  | nil => simp [mapAssign] at h; exact Or.inl h
  | cons e0 m ih =>
    obtain ⟨k, v⟩ := e0
    simp only [mapAssign] at h
    split_ifs at h with hk
    · rcases List.mem_cons.1 h with h1 | h1
      · exact Or.inl h1
      · exact Or.inr (List.mem_cons_of_mem _ h1)
    · rcases List.mem_cons.1 h with h1 | h1
      · exact Or.inr (h1 ▸ List.mem_cons_self _ _)
      · rcases ih h1 with h2 | h2
        · exact Or.inl h2
        · exact Or.inr (List.mem_cons_of_mem _ h2)

theorem keys_mapAssign (m : List (T × Nat)) (t : T) (p : Nat) (u : T) :
    u ∈ (mapAssign m t p).map Prod.fst ↔ u = t ∨ u ∈ m.map Prod.fst := by
  rw [← not_iff_not, ← mapFind_eq_none, mapFind_mapAssign]
  by_cases h : u = t
  · simp [h]
  · simp [h, mapFind_eq_none]

theorem nodup_mapAssign {m : List (T × Nat)} (t : T) (p : Nat)
    (hn : (m.map Prod.fst).Nodup) : ((mapAssign m t p).map Prod.fst).Nodup := by
  induction m with
  | nil => simp [mapAssign]
  | cons e0 m ih =>
    obtain ⟨k, v⟩ := e0
    simp only [List.map_cons, List.nodup_cons] at hn
    simp only [mapAssign]
    split_ifs with hk
    · subst hk
      simpa using hn
    · simp only [List.map_cons, List.nodup_cons]
      refine ⟨?_, ih hn.2⟩
      rw [keys_mapAssign]
      rintro (h | h)
      · exact hk h
      · exact hn.1 h

theorem mapFind_mapErase (m : List (T × Nat)) (t u : T) :
    mapFind (mapErase m t) u = if u = t then none else mapFind m u := by
  induction m with
  | nil => simp [mapErase, mapFind]
  | cons e m ih =>
    obtain ⟨k, v⟩ := e
    unfold mapErase at ih ⊢
    by_cases hk : k = t
    · subst hk
      simp only [List.filter_cons, ne_eq, not_true_eq_false, decide_False, Bool.false_eq_true,
        if_false, ih, mapFind]
      by_cases h : u = k
      · simp [h]
      · have : ¬ k = u := fun e => h e.symm
        simp [h, this]
    · simp only [List.filter_cons, ne_eq, hk, not_false_eq_true, decide_True, if_true, mapFind, ih]
      by_cases h : k = u
      · subst h; simp [hk]
      · simp [h]

theorem mapErase_length {m : List (T × Nat)} {t : T} {p : Nat}
    (hn : (m.map Prod.fst).Nodup) (h : mapFind m t = some p) :
    (mapErase m t).length + 1 = m.length := by
  induction m with
  | nil => simp [mapFind] at h
  | cons e m ih =>
    obtain ⟨k, v⟩ := e
    simp only [List.map_cons, List.nodup_cons] at hn
    simp only [mapFind] at h
    unfold mapErase at ih ⊢
    split_ifs at h with hk
    · subst hk
      have hall : m.filter (fun e => decide (e.1 ≠ k)) = m := by
        apply List.filter_eq_self.2
        intro e he
        have : e.1 ≠ k := by
          rintro rfl
          exact hn.1 (List.mem_map.2 ⟨e, he, rfl⟩)
        exact decide_eq_true this
      have e1 : List.filter (fun e : T × Nat => decide (e.1 ≠ k)) ((k, v) :: m)
          = List.filter (fun e : T × Nat => decide (e.1 ≠ k)) m :=
        List.filter_cons_of_neg (by simp)
      rw [e1, hall, List.length_cons]
    · have h1 := ih hn.2 h
      have e1 : List.filter (fun e : T × Nat => decide (e.1 ≠ t)) ((k, v) :: m)
          = (k, v) :: List.filter (fun e : T × Nat => decide (e.1 ≠ t)) m :=
        List.filter_cons_of_pos (by simpa using hk)
      rw [e1, List.length_cons, List.length_cons]
      omega

theorem mem_mapErase {m : List (T × Nat)} {t : T} {e : T × Nat} :
    e ∈ mapErase m t ↔ e ∈ m ∧ e.1 ≠ t := by
  simp [mapErase]

theorem nodup_mapErase {m : List (T × Nat)} (t : T)
    (hn : (m.map Prod.fst).Nodup) : ((mapErase m t).map Prod.fst).Nodup :=
  (List.Sublist.map Prod.fst (List.filter_sublist m)).nodup hn

end Map

/-! ## The free store -/

namespace DependencyQueue

variable {T : Type}

theorem deref_lt {q : DependencyQueue T} {p : Nat} {j : Job T}
    (h : q.deref p = some j) : p < q.heap.length :=
  lt_length_of_getD _ _ _ h

theorem deref_store {q : DependencyQueue T} {p : Nat} {j0 : Job T}
    (h : q.deref p = some j0) (j : Job T) (x : Nat) :
    (q.store p j).deref x = if x = p then some j else q.deref x :=
  getD_set_none _ _ _ _ (deref_lt h)

theorem deref_deleteJob {q : DependencyQueue T} {p : Nat} {j0 : Job T}
    (h : q.deref p = some j0) (x : Nat) :
    (q.deleteJob p).deref x = if x = p then none else q.deref x :=
  getD_set_none _ _ _ _ (deref_lt h)

theorem deref_newJob (q : DependencyQueue T) (task : T) (x : Nat) :
    (q.newJob task).1.deref x =
      if x = q.heap.length then some ⟨task, [], []⟩ else q.deref x :=
  getD_append_singleton _ _ _

theorem deref_fresh (q : DependencyQueue T) : q.deref q.heap.length = none := by
  cases h : q.deref q.heap.length with
  | none => rfl
  | some j => exact absurd (deref_lt h) (lt_irrefl _)

/-! ## What each operation does -/

variable [DecidableEq T]

theorem addDependencyJobs_some {q q' : DependencyQueue T} {fromJob toJob : Option Nat}
    (h : q.addDependencyJobs fromJob toJob = some q') :
    ∃ f t, fromJob = some f ∧ toJob = some t ∧
      (q.deref f).isSome ∧ (q.deref t).isSome ∧
      q'.queue = q.queue ∧ q'.runnable = q.runnable ∧
      q'.heap.length = q.heap.length ∧
      ∀ p, q'.deref p = (q.deref p).map (addEdge f t p) := by
  unfold addDependencyJobs at h
  cases fromJob with
  | none => simp at h
  | some f =>
    cases toJob with
    | none => simp at h
    | some t =>
      cases hf : q.deref f with
      | none => simp [hf] at h
      | some fj =>
        simp only [Option.bind_eq_bind, Option.some_bind, hf] at h
        cases ht1 : (q.store f { fj with waitList := setInsert fj.waitList t }).deref t with
        | none => simp [ht1] at h
        | some tj =>
          simp only [ht1, Option.some_bind, Option.pure_def, Option.some.injEq] at h
          subst h
          have ht := ht1
          rw [deref_store hf] at ht
          refine ⟨f, t, rfl, rfl, by rw [hf]; rfl, ?_, rfl, rfl, ?_, ?_⟩
          · split_ifs at ht with e
            · subst e; simp [hf]
            · simp [ht]
          · simp [store]
          · intro p
            rw [deref_store ht1, deref_store hf]
            by_cases hpt : p = t
            · subst hpt
              simp only [if_true]
              split_ifs at ht with e
              · subst e
                simp only [Option.some.injEq] at ht
                subst ht
                simp [hf, addEdge]
              · simp [ht, addEdge, e]
            · simp only [hpt, if_false]
              by_cases hpf : p = f
              · subst hpf
                simp [hf, addEdge, hpt]
              · simp only [hpf, if_false]
                cases hp : q.deref p with
                | none => rfl
                | some pj => simp [addEdge, hpt, hpf]

theorem addDependencyJobs_isSome {q : DependencyQueue T} {f t : Nat}
    (hf : (q.deref f).isSome) (ht : (q.deref t).isSome) :
    ∃ q', q.addDependencyJobs (some f) (some t) = some q' := by
  obtain ⟨fj, hfj⟩ := Option.isSome_iff_exists.1 hf
  obtain ⟨tj, htj⟩ := Option.isSome_iff_exists.1 ht
  unfold addDependencyJobs
  simp only [Option.bind_eq_bind, Option.some_bind, hfj]
  have h1 : ((q.store f { fj with waitList := setInsert fj.waitList t }).deref t).isSome := by
    rw [deref_store hfj]
    split_ifs <;> simp [htj]
  obtain ⟨tj1, htj1⟩ := Option.isSome_iff_exists.1 h1
  simp [htj1]

theorem markCompleteLoop_some {job : Nat} {deps : List Nat} :
    ∀ {q q' : DependencyQueue T}, q.markCompleteLoop job deps = some q' →
      (∀ d ∈ deps, (q.deref d).isSome) ∧ q'.queue = q.queue ∧
      (∃ k, q'.runnable = q.runnable ++ List.replicate k job) ∧
      q'.heap.length = q.heap.length ∧
      ∀ p, q'.deref p = (q.deref p).map (dropEdge job deps p) := by
  induction deps with
  | nil =>
    intro q q' h
    simp only [markCompleteLoop, Option.some.injEq] at h
    subst h
    refine ⟨by simp, rfl, ⟨0, by simp⟩, rfl, ?_⟩
    intro p
    cases q.deref p <;> simp [dropEdge]
  | cons dep rest ih =>
    intro q q' h
    simp only [markCompleteLoop, Option.bind_eq_bind] at h
    cases hd : q.deref dep with
    | none => simp [hd] at h
    | some dj =>
      simp only [hd, Option.some_bind, deref_store hd, if_true] at h
      obtain ⟨hl, hq, ⟨k, hr⟩, hlen, hderef⟩ := ih h
      have hd2 : ∀ x, (if Job.isRunnable { dj with waitList := setErase dj.waitList job } = true
            then (q.store dep { dj with waitList := setErase dj.waitList job }).markRunnable job
            else q.store dep { dj with waitList := setErase dj.waitList job }).deref x
          = if x = dep then some { dj with waitList := setErase dj.waitList job }
            else q.deref x := by
        intro x
        rw [← deref_store hd]
        split_ifs <;> rfl
      refine ⟨?_, ?_, ?_, ?_, ?_⟩
      · intro d hdm
        rcases List.mem_cons.1 hdm with e | e
        · subst e; rw [hd]; rfl
        · have := hl d e
          rw [hd2] at this
          split_ifs at this with e2
          · subst e2; rw [hd]; rfl
          · exact this
      · rw [hq]; split_ifs <;> rfl
      · split_ifs at hr with hrun
        · refine ⟨k + 1, ?_⟩
          rw [hr]
          simp [markRunnable, store, List.replicate_succ]
        · exact ⟨k, by rw [hr]; rfl⟩
      · rw [hlen]; split_ifs <;> simp [markRunnable, store]
      · intro p
        rw [hderef, hd2]
        by_cases hp : p = dep
        · subst hp
          simp only [if_true, hd, Option.map_some', Option.some.injEq, dropEdge,
            List.mem_cons, true_or]
          by_cases hm : p ∈ rest
          · simp [hm, setErase_setErase]
          · simp [hm]
        · simp only [hp, if_false]
          cases q.deref p with
          | none => rfl
          | some pj => simp [dropEdge, hp]

theorem markCompleteLoop_isSome (job : Nat) {deps : List Nat} :
    ∀ {q : DependencyQueue T}, (∀ d ∈ deps, (q.deref d).isSome) →
      ∃ q', q.markCompleteLoop job deps = some q' := by
  induction deps with
  | nil => intro q _; exact ⟨q, rfl⟩
  | cons dep rest ih =>
    intro q hl
    obtain ⟨dj, hd⟩ := Option.isSome_iff_exists.1 (hl dep (List.mem_cons_self _ _))
    simp only [markCompleteLoop, Option.bind_eq_bind, hd, Option.some_bind, deref_store hd,
      if_true]
    apply ih
    intro d hdm
    have hd2 : ∀ x, (if Job.isRunnable { dj with waitList := setErase dj.waitList job } = true
          then (q.store dep { dj with waitList := setErase dj.waitList job }).markRunnable job
          else q.store dep { dj with waitList := setErase dj.waitList job }).deref x
        = if x = dep then some { dj with waitList := setErase dj.waitList job }
          else q.deref x := by
      intro x
      rw [← deref_store hd]
      split_ifs <;> rfl
    rw [hd2]
    split_ifs
    · rfl
    · exact hl d (List.mem_cons_of_mem _ hdm)

theorem jobCompleted_some {q q' : DependencyQueue T} {task : T}
    (h : q.jobCompleted task = some q') :
    ∃ p j, q.getJob task = some p ∧ q.deref p = some j ∧
      (∀ d ∈ j.usedBy, (q.deref d).isSome) ∧
      q'.queue = mapErase q.queue task ∧
      (∃ k, q'.runnable = q.runnable ++ List.replicate k p) ∧
      q'.heap.length = q.heap.length ∧
      ∀ x, q'.deref x = if x = p then none else (q.deref x).map (dropEdge p j.usedBy x) := by
  unfold jobCompleted markComplete at h
  cases hg : q.getJob task with
  | none => simp [hg] at h
  | some p =>
    cases hj : q.deref p with
    | none => simp [hg, hj] at h
    | some j =>
      simp only [hg, hj, Option.bind_eq_bind, Option.some_bind] at h
      cases hm : q.markCompleteLoop p j.usedBy with
      | none => simp [hm] at h
      | some q1 =>
        simp only [hm, Option.some_bind, Option.pure_def, Option.some.injEq] at h
        subst h
        obtain ⟨hl, hq, hr, hlen, hderef⟩ := markCompleteLoop_some hm
        have hp1 : ∃ j1, q1.deref p = some j1 := by
          rw [hderef, hj]; exact ⟨_, rfl⟩
        obtain ⟨j1, hj1⟩ := hp1
        refine ⟨p, j, rfl, hj, hl, ?_, hr, ?_, ?_⟩
        · simp [deleteJob, hq]
        · simp [deleteJob, hlen]
        · intro x
          have : (({ q1 with queue := mapErase q1.queue task } : DependencyQueue T).deleteJob p).deref x
              = (q1.deleteJob p).deref x := rfl
          rw [this, deref_deleteJob hj1, hderef]

theorem jobCompleted_isSome {q : DependencyQueue T} {task : T} {p : Nat} {j : Job T}
    (hg : q.getJob task = some p) (hj : q.deref p = some j)
    (hl : ∀ d ∈ j.usedBy, (q.deref d).isSome) :
    ∃ q', q.jobCompleted task = some q' := by
  obtain ⟨q1, hm⟩ := markCompleteLoop_isSome p hl
  unfold jobCompleted markComplete
  simp [hg, hj, hm]

theorem dequeueJob_some {q q' : DependencyQueue T} {t : T}
    (h : q.dequeueJob = some (t, q')) :
    ∃ p j, q.runnable = p :: q'.runnable ∧ q.deref p = some j ∧ j.task = t ∧
      q'.queue = q.queue ∧ q'.heap = q.heap := by
  unfold dequeueJob at h
  cases hr : q.runnable with
  | nil => simp [hr] at h
  | cons p rest =>
    simp only [hr, Option.bind_eq_bind] at h
    cases hj : q.deref p with
    | none => simp [hj] at h
    | some j =>
      simp only [hj, Option.some_bind, Option.pure_def, Option.some.injEq, Prod.mk.injEq] at h
      obtain ⟨h1, h2⟩ := h
      subst h2
      exact ⟨p, j, rfl, hj, h1, rfl, rfl⟩

theorem addDependency_some {q q' : DependencyQueue T} {fromTask toTask : T}
    (h : q.addDependency fromTask toTask = some q') :
    ∃ pf pt fj, q.getJob fromTask = some pf ∧ q.getJob toTask = some pt ∧
      q.deref pf = some fj ∧ (q.deref pt).isSome ∧
      q'.queue = q.queue ∧
      q'.runnable = (if fj.isRunnable then q.runnable.filter (fun x => decide (x ≠ pf))
        else q.runnable) ∧
      q'.heap.length = q.heap.length ∧
      ∀ p, q'.deref p = (q.deref p).map (addEdge pf pt p) := by
  unfold addDependency at h
  cases hg : q.getJob fromTask with
  | none => simp [hg] at h
  | some pf =>
    cases hj : q.deref pf with
    | none => simp [hg, hj] at h
    | some fj =>
      simp only [hg, hj, Option.bind_eq_bind, Option.some_bind] at h
      obtain ⟨f, t, h1, h2, h3, h4, h5, h6, h7, h8⟩ := addDependencyJobs_some h
      cases h1
      refine ⟨pf, t, fj, rfl, h2, hj, ?_, ?_, ?_, ?_, ?_⟩
      · split_ifs at h4 <;> exact h4
      · rw [h5]; split_ifs <;> rfl
      · rw [h6]; split_ifs <;> rfl
      · rw [h7]; split_ifs <;> rfl
      · intro p; rw [h8]; split_ifs <;> rfl

theorem addDependency_isSome {q : DependencyQueue T} {fromTask toTask : T} {pf pt : Nat}
    (hf : q.getJob fromTask = some pf) (ht : q.getJob toTask = some pt)
    (hfl : (q.deref pf).isSome) (htl : (q.deref pt).isSome) :
    ∃ q', q.addDependency fromTask toTask = some q' := by
  obtain ⟨fj, hfj⟩ := Option.isSome_iff_exists.1 hfl
  unfold addDependency
  simp only [hf, ht, hfj, Option.bind_eq_bind, Option.some_bind]
  apply addDependencyJobs_isSome
  · split_ifs <;> exact hfl
  · split_ifs <;> exact htl

theorem addEdge_task (f t p : Nat) (j : Job T) : (addEdge f t p j).task = j.task := rfl

theorem addEdges_task (f : Nat) (ts : List Nat) (p : Nat) (j : Job T) :
    (addEdges f ts p j).task = j.task := by
  induction ts generalizing j with
  | nil => rfl
  | cons t ts ih => simp [addEdges, ih, addEdge_task]

theorem addEdges_waitList_ne {f p : Nat} (h : p ≠ f) (ts : List Nat) (j : Job T) :
    (addEdges f ts p j).waitList = j.waitList := by
  induction ts generalizing j with
  | nil => rfl
  | cons t ts ih => simp [addEdges, ih, addEdge, h]

theorem mem_addEdges_waitList (f : Nat) (ts : List Nat) (j : Job T) (x : Nat) :
    x ∈ (addEdges f ts f j).waitList ↔ x ∈ j.waitList ∨ x ∈ ts := by
  induction ts generalizing j with
  | nil => simp [addEdges]
  | cons t ts ih =>
    simp only [addEdges, ih, addEdge, if_true, mem_setInsert, List.mem_cons]
    tauto

theorem addEdges_waitList_ne_nil (f : Nat) {ts : List Nat} (h : ts ≠ []) (j : Job T) :
    (addEdges f ts f j).waitList ≠ [] := by
  cases ts with
  | nil => exact absurd rfl h
  | cons t ts =>
    intro e
    have : t ∈ (addEdges f (t :: ts) f j).waitList :=
      (mem_addEdges_waitList f (t :: ts) j t).2 (Or.inr (List.mem_cons_self _ _))
    rw [e] at this
    exact List.not_mem_nil _ this

theorem queueJobLoop_some {job : Nat} {deps : List T} :
    ∀ {q q' : DependencyQueue T}, q.queueJobLoop job deps = some q' →
      (∀ d ∈ deps, ∃ p, q.getJob d = some p ∧ (q.deref p).isSome) ∧
      (deps ≠ [] → (q.deref job).isSome) ∧
      q'.queue = q.queue ∧ q'.runnable = q.runnable ∧
      q'.heap.length = q.heap.length ∧
      ∀ p, q'.deref p = (q.deref p).map (addEdges job (deps.filterMap q.getJob) p) := by
  induction deps with
  | nil =>
    intro q q' h
    simp only [queueJobLoop, Option.some.injEq] at h
    subst h
    refine ⟨by simp, by simp, rfl, rfl, rfl, ?_⟩
    intro p
    cases q.deref p <;> simp [addEdges]
  | cons d rest ih =>
    intro q q' h
    simp only [queueJobLoop, Option.bind_eq_bind] at h
    cases h1 : q.addDependencyJobs (some job) (q.getJob d) with
    | none => simp [h1] at h
    | some q1 =>
      simp only [h1, Option.some_bind] at h
      obtain ⟨f, t, e1, e2, e3, e4, e5, e6, e7, e8⟩ := addDependencyJobs_some h1
      cases e1
      obtain ⟨i1, _, i3, i4, i5, i6⟩ := ih h
      have hget : q1.getJob = q.getJob := by
        funext x; simp [getJob, e5]
      have hlive : ∀ x, (q1.deref x).isSome = (q.deref x).isSome := by
        intro x; rw [e8]; cases q.deref x <;> rfl
      refine ⟨?_, fun _ => e3, by rw [i3, e5], by rw [i4, e6], by rw [i5, e7], ?_⟩
      · intro d1 hd1
        rcases List.mem_cons.1 hd1 with e | e
        · subst e; exact ⟨t, e2, e4⟩
        · obtain ⟨p, hp1, hp2⟩ := i1 d1 e
          exact ⟨p, by rw [← hget]; exact hp1, by rw [← hlive]; exact hp2⟩
      · intro p
        rw [i6, e8, hget]
        simp only [List.filterMap_cons, e2]
        cases q.deref p <;> simp [addEdges]

theorem queueJobLoop_isSome {job : Nat} {deps : List T} :
    ∀ (q : DependencyQueue T), (q.deref job).isSome →
      (∀ d ∈ deps, ∃ p, q.getJob d = some p ∧ (q.deref p).isSome) →
      ∃ q', q.queueJobLoop job deps = some q' := by
  induction deps with
  | nil => intro q _ _; exact ⟨q, rfl⟩
  | cons d rest ih =>
    intro q hj hl
    obtain ⟨p, hp1, hp2⟩ := hl d (List.mem_cons_self _ _)
    obtain ⟨q1, h1⟩ := addDependencyJobs_isSome hj hp2
    obtain ⟨f, t, e1, e2, e3, e4, e5, e6, e7, e8⟩ := addDependencyJobs_some h1
    have hget : q1.getJob = q.getJob := by
      funext x; simp [getJob, e5]
    have hlive : ∀ x, (q1.deref x).isSome = (q.deref x).isSome := by
      intro x; rw [e8]; cases q.deref x <;> rfl
    simp only [queueJobLoop, Option.bind_eq_bind, hp1, h1, Option.some_bind]
    apply ih q1
    · rw [hlive]; exact hj
    · intro d1 hd1
      obtain ⟨p1, hp3, hp4⟩ := hl d1 (List.mem_cons_of_mem _ hd1)
      exact ⟨p1, by rw [hget]; exact hp3, by rw [hlive]; exact hp4⟩

theorem queueJob_queue (q : DependencyQueue T) (task : T) :
    (q.queueJob task).queue = mapAssign q.queue task q.heap.length := rfl

theorem queueJob_runnable (q : DependencyQueue T) (task : T) :
    (q.queueJob task).runnable = q.runnable ++ [q.heap.length] := rfl

theorem queueJob_heap_length (q : DependencyQueue T) (task : T) :
    (q.queueJob task).heap.length = q.heap.length + 1 := by
  simp [queueJob, newJob, markRunnable]

theorem deref_queueJob (q : DependencyQueue T) (task : T) (x : Nat) :
    (q.queueJob task).deref x =
      if x = q.heap.length then some ⟨task, [], []⟩ else q.deref x :=
  deref_newJob q task x

/-- The queue in the middle of `queueJob(task, begin, end)`, after
`queue[task] = job` and before the loop. -/
theorem queueJobDeps_eq (q : DependencyQueue T) (task : T) (deps : List T) :
    q.queueJobDeps task deps =
      (queueJobLoop { (q.newJob task).1 with
          queue := mapAssign q.queue task q.heap.length } q.heap.length deps).bind
        (fun q3 => (q3.deref q.heap.length).bind
          (fun j => some (if j.isRunnable then q3.markRunnable q.heap.length else q3))) := rfl

theorem queueJobDeps_some {q q' : DependencyQueue T} {task : T} {deps : List T}
    (h : q.queueJobDeps task deps = some q') :
    (∀ d ∈ deps, d = task ∨
      ∃ p, q.getJob d = some p ∧ (p = q.heap.length ∨ (q.deref p).isSome)) ∧
    q'.queue = mapAssign q.queue task q.heap.length ∧
    q'.runnable = q.runnable ++ (if deps = [] then [q.heap.length] else []) ∧
    q'.heap.length = q.heap.length + 1 ∧
    ∀ x, q'.deref x =
      (if x = q.heap.length then some ⟨task, [], []⟩ else q.deref x).map
        (addEdges q.heap.length
          (deps.filterMap (fun d => if d = task then some q.heap.length else q.getJob d)) x) := by
  rw [queueJobDeps_eq] at h
  cases h1 : queueJobLoop { (q.newJob task).1 with
      queue := mapAssign q.queue task q.heap.length } q.heap.length deps with
  | none => simp [h1] at h
  | some q3 =>
    obtain ⟨i1, _, i3, i4, i5, i6⟩ := queueJobLoop_some h1
    have hget : ∀ d, getJob { (q.newJob task).1 with
        queue := mapAssign q.queue task q.heap.length } d
        = if d = task then some q.heap.length else q.getJob d := by
      intro d; simp [getJob, mapFind_mapAssign]
    have hder : ∀ x, deref { (q.newJob task).1 with
        queue := mapAssign q.queue task q.heap.length } x
        = if x = q.heap.length then some ⟨task, [], []⟩ else q.deref x :=
      fun x => deref_newJob q task x
    have hfm : deps.filterMap (getJob { (q.newJob task).1 with
        queue := mapAssign q.queue task q.heap.length })
        = deps.filterMap (fun d => if d = task then some q.heap.length else q.getJob d) := by
      congr 1; funext d; exact hget d
    rw [hfm] at i6
    have hn : q3.deref q.heap.length = some (addEdges q.heap.length
        (deps.filterMap (fun d => if d = task then some q.heap.length else q.getJob d))
        q.heap.length ⟨task, [], []⟩) := by
      rw [i6, hder]; simp
    simp only [h1, hn, Option.some_bind, Option.some.injEq] at h
    subst h
    refine ⟨?_, ?_, ?_, ?_, ?_⟩
    · intro d hd
      obtain ⟨p, hp1, hp2⟩ := i1 d hd
      rw [hget] at hp1
      rw [hder] at hp2
      by_cases hdt : d = task
      · exact Or.inl hdt
      · right
        simp only [hdt, if_false] at hp1
        refine ⟨p, hp1, ?_⟩
        split_ifs at hp2 with e
        · exact Or.inl e
        · exact Or.inr hp2
    · split_ifs <;> simp [markRunnable, i3]
    · have hw : (addEdges q.heap.length
          (deps.filterMap (fun d => if d = task then some q.heap.length else q.getJob d))
          q.heap.length ⟨task, [], []⟩).isRunnable = true ↔ deps = [] := by
        constructor
        · intro hr
          by_contra hne
          have hfne : deps.filterMap
              (fun d => if d = task then some q.heap.length else q.getJob d) ≠ [] := by
            cases deps with
            | nil => exact absurd rfl hne
            | cons d rest =>
              obtain ⟨p, hp1, _⟩ := i1 d (List.mem_cons_self _ _)
              rw [hget] at hp1
              simp [List.filterMap_cons, hp1]
          have := addEdges_waitList_ne_nil q.heap.length hfne (⟨task, [], []⟩ : Job T)
          simp [Job.isRunnable] at hr
          exact this hr
        · intro e; subst e; rfl
      by_cases hde : deps = []
      · rw [if_pos (hw.2 hde), if_pos hde]
        show q3.runnable ++ [q.heap.length] = _
        rw [i4]
        rfl
      · have : ¬ (addEdges q.heap.length
          (deps.filterMap (fun d => if d = task then some q.heap.length else q.getJob d))
          q.heap.length ⟨task, [], []⟩).isRunnable = true := fun e => hde (hw.1 e)
        rw [if_neg this, if_neg hde, i4]
        exact (List.append_nil _).symm
    · have : q3.heap.length = q.heap.length + 1 := by
        rw [i5]; simp [newJob]
      split_ifs <;> simpa [markRunnable] using this
    · intro x
      have : ∀ x, (if (addEdges q.heap.length
          (deps.filterMap (fun d => if d = task then some q.heap.length else q.getJob d))
          q.heap.length ⟨task, [], []⟩).isRunnable = true
          then q3.markRunnable q.heap.length else q3).deref x = q3.deref x := by
        intro x; split_ifs <;> rfl
      rw [this, i6, hder]

theorem queueJobDeps_isSome {q : DependencyQueue T} (task : T) {deps : List T}
    (hl : ∀ d ∈ deps, d = task ∨ ∃ p, q.getJob d = some p ∧ (q.deref p).isSome) :
    ∃ q', q.queueJobDeps task deps = some q' := by
  have hget : ∀ d, getJob { (q.newJob task).1 with
      queue := mapAssign q.queue task q.heap.length } d
      = if d = task then some q.heap.length else q.getJob d := by
    intro d; simp [getJob, mapFind_mapAssign]
  have hder : ∀ x, deref { (q.newJob task).1 with
      queue := mapAssign q.queue task q.heap.length } x
      = if x = q.heap.length then some ⟨task, [], []⟩ else q.deref x :=
    fun x => deref_newJob q task x
  obtain ⟨q3, h3⟩ : ∃ q3, queueJobLoop { (q.newJob task).1 with
      queue := mapAssign q.queue task q.heap.length } q.heap.length deps = some q3 :=
    queueJobLoop_isSome _
    (by rw [hder]; simp)
    (by
      intro d hd
      rw [hget]
      rcases hl d hd with e | ⟨p, hp1, hp2⟩
      · exact ⟨q.heap.length, by simp [e], by rw [hder]; simp⟩
      · by_cases e : d = task
        · exact ⟨q.heap.length, by simp [e], by rw [hder]; simp⟩
        · refine ⟨p, by simp [e, hp1], ?_⟩
          rw [hder]
          split_ifs
          · rfl
          · exact hp2)
  obtain ⟨_, _, _, _, _, i6⟩ := queueJobLoop_some h3
  have hn : (q3.deref q.heap.length).isSome := by
    rw [i6, hder]; simp
  obtain ⟨jn, hjn⟩ := Option.isSome_iff_exists.1 hn
  rw [queueJobDeps_eq, h3]
  simp [hjn]

end DependencyQueue

end fabr


/-! ## The dependency queue: single calls -/

namespace fabr

namespace DependencyQueue

variable {T : Type} [DecidableEq T]

theorem WF.live {q : DependencyQueue T} (hwf : WF q) {t : T} {p : Nat}
    (h : q.getJob t = some p) : ∃ j, q.deref p = some j ∧ j.task = t := by
  have h1 := hwf.2.1 (t, p) (mapFind_mem h)
  cases hj : q.deref p with
  | none => simp [hj] at h1
  | some j => exact ⟨j, rfl, by simpa [hj] using h1⟩

theorem queueJobDeps_nil (q : DependencyQueue T) (t : T) :
    q.queueJobDeps t [] = some (q.queueJob t) := by
  rw [queueJobDeps_eq]
  have hder : deref { (q.newJob t).1 with
      queue := mapAssign q.queue t q.heap.length } q.heap.length
      = some ⟨t, [], []⟩ := by
    have := deref_newJob q t q.heap.length
    simpa using this
  simp only [queueJobLoop, Option.some_bind, hder]
  rfl

end DependencyQueue

open DependencyQueue

variable {T : Type} [DecidableEq T]

/-- C1, the code at the failing input: `a` is queued without dependencies, `b`
with the dependency `a`, and `a` is handed out.  `jobCompleted(a)` then empties
the wait list of `b`, but what it appends to the runnable list is the job of
`a` (address 0), which it deletes, and not the job of `b` (address 1): `b` is
not in the runnable list and the next `dequeueJob` reads a deleted job. -/
theorem jobCompleted_appends_completed_job :
    ∃ q2 q3 q4 : DependencyQueue Target,
      (ctor.queueJob Target.a).queueJobDeps Target.b [Target.a] = some q2 ∧
      q2.dequeueJob = some (Target.a, q3) ∧
      q3.jobCompleted Target.a = some q4 ∧
      q4.getJob Target.b = some 1 ∧
      q4.deref 1 = some ⟨Target.b, [], []⟩ ∧
      q4.runnable = [0] ∧ q4.deref 0 = none ∧ 1 ∉ q4.runnable ∧
      q4.dequeueJob = none :=
  ⟨⟨[some ⟨Target.a, [], [1]⟩, some ⟨Target.b, [0], []⟩], [(Target.a, 0), (Target.b, 1)], [0]⟩,
   ⟨[some ⟨Target.a, [], [1]⟩, some ⟨Target.b, [0], []⟩], [(Target.a, 0), (Target.b, 1)], []⟩,
   ⟨[none, some ⟨Target.b, [], []⟩], [(Target.b, 1)], [0]⟩,
   by decide⟩

/-- C2, the code at the failing input: for `a` without dependencies and `b`
depending on `a`, the first round of the drain loop hands out `a` and completes
it; the queue is then not empty, `b` is still queued, `hasRunnable()` is true,
and the `dequeueJob` of the second round is undefined, so the loop has no
result however many rounds it is given. -/
theorem drain_scenario_a_undefined :
    ∃ q2 q4 : DependencyQueue Target,
      (ctor.queueJob Target.a).queueJobDeps Target.b [Target.a] = some q2 ∧
      drain 1 q2 = some ([Target.a], q4) ∧
      q4.empty = false ∧ q4.isQueued Target.b = true ∧ q4.hasRunnable = true ∧
      q4.dequeueJob = none ∧
      ∀ n, drain (n + 2) q2 = none :=
  ⟨⟨[some ⟨Target.a, [], [1]⟩, some ⟨Target.b, [0], []⟩], [(Target.a, 0), (Target.b, 1)], [0]⟩,
   ⟨[none, some ⟨Target.b, [], []⟩], [(Target.b, 1)], [0]⟩,
   by decide, by decide, by decide, by decide, by decide, by decide, fun _ => rfl⟩

/-- C8: on a well-formed queue with `t` queued at the job `p`, every defined
`jobCompleted(t)` leaves `t` not queued, `size()` one less than before and
`isQueued(u)` unchanged for every other task `u`; and `jobCompleted(t)` is
defined when the jobs recorded in `usedBy` of `p` are live. -/
theorem jobCompleted_removes_task (q : DependencyQueue T) (t : T) (p : Nat)
    (hwf : WF q) (hg : q.getJob t = some p) :
    (∀ q', q.jobCompleted t = some q' →
      q'.isQueued t = false ∧ q'.size + 1 = q.size ∧
      ∀ u, u ≠ t → q'.isQueued u = q.isQueued u) ∧
    ((∀ j ∈ q.deref p, ∀ d ∈ j.usedBy, (q.deref d).isSome) →
      ∃ q', q.jobCompleted t = some q') := by
  constructor
  · intro q' hq'
    obtain ⟨p1, j, _, _, _, e4, _, _, _⟩ := jobCompleted_some hq'
    refine ⟨?_, ?_, ?_⟩
    · simp [isQueued, getJob, e4, mapFind_mapErase]
    · simp only [size, e4]
      exact mapErase_length hwf.1 hg
    · intro u hu
      simp [isQueued, getJob, e4, mapFind_mapErase, hu]
  · intro hl
    obtain ⟨j, hj, _⟩ := hwf.live hg
    exact jobCompleted_isSome hg hj (hl j hj)

/-- C8 on the queue in which `a` has been handed out and `b` waits for it:
`jobCompleted(a)` is defined, `a` is no longer queued, `size()` went from 2 to
1 and `b` is still queued. -/
theorem jobCompleted_removes_task_witness :
    ∃ q' : DependencyQueue Target,
      (⟨[some ⟨Target.a, [], [1]⟩, some ⟨Target.b, [0], []⟩],
        [(Target.a, 0), (Target.b, 1)], []⟩ : DependencyQueue Target).jobCompleted Target.a
        = some q' ∧
      q'.isQueued Target.a = false ∧ q'.size + 1 = 2 ∧ q'.isQueued Target.b = true :=
  have h := jobCompleted_removes_task
    (⟨[some ⟨Target.a, [], [1]⟩, some ⟨Target.b, [0], []⟩],
      [(Target.a, 0), (Target.b, 1)], []⟩ : DependencyQueue Target)
    Target.a 0 (by decide) (by decide)
  (h.2 (by decide)).elim fun q' hq' =>
    ⟨q', hq', (h.1 q' hq').1, (h.1 q' hq').2.1,
      ((h.1 q' hq').2.2 Target.b (by decide)).trans (by decide)⟩

/-- C9 as stated fails for a task given as its own dependency: on the new queue
`queueJob(a, {a})` is defined although `a` is not queued when the call is
made. -/
theorem queueJobDeps_self_dependency :
    ¬ (((ctor : DependencyQueue Target).queueJobDeps Target.a [Target.a]).isSome = true ↔
        ∀ x ∈ [Target.a], (ctor : DependencyQueue Target).isQueued x = true) := by
  decide

/-- C9, amended: on a well-formed queue `queueJob(task, deps)` is defined
exactly when every element of `deps` is queued or is `task` itself, which the
call has registered before it looks its dependencies up; and when it is
defined, the job of every element of `deps` is in the wait list of the new
job. -/
theorem queueJobDeps_defined_iff (q : DependencyQueue T) (task : T) (deps : List T)
    (hwf : WF q) :
    ((q.queueJobDeps task deps).isSome = true ↔
      ∀ d ∈ deps, d = task ∨ q.isQueued d = true) ∧
    ∀ q', q.queueJobDeps task deps = some q' →
      ∃ jn, q'.getJob task = some q.heap.length ∧ q'.deref q.heap.length = some jn ∧
        ∀ d ∈ deps, ∃ p, q'.getJob d = some p ∧ p ∈ jn.waitList := by
  constructor
  · constructor
    · intro h
      obtain ⟨q', hq'⟩ := Option.isSome_iff_exists.1 h
      obtain ⟨e1, _⟩ := queueJobDeps_some hq'
      intro d hd
      rcases e1 d hd with e | ⟨p, hp, _⟩
      · exact Or.inl e
      · exact Or.inr (by simp [isQueued, hp])
    · intro h
      have hl : ∀ d ∈ deps, d = task ∨ ∃ p, q.getJob d = some p ∧ (q.deref p).isSome := by
        intro d hd
        rcases h d hd with e | e
        · exact Or.inl e
        · obtain ⟨p, hp⟩ := Option.isSome_iff_exists.1 e
          obtain ⟨j, hj, _⟩ := hwf.live hp
          exact Or.inr ⟨p, hp, by rw [hj]; rfl⟩
      obtain ⟨q', hq'⟩ := queueJobDeps_isSome task hl
      rw [hq']; rfl
  · intro q' hq'
    obtain ⟨e1, e2, _, _, e5⟩ := queueJobDeps_some hq'
    refine ⟨addEdges q.heap.length
        (deps.filterMap (fun d => if d = task then some q.heap.length else q.getJob d))
        q.heap.length ⟨task, [], []⟩, ?_, ?_, ?_⟩
    · simp [getJob, e2, mapFind_mapAssign]
    · rw [e5]; simp
    · intro d hd
      have hg : q'.getJob d = if d = task then some q.heap.length else q.getJob d := by
        simp [getJob, e2, mapFind_mapAssign]
      have : ∃ p, (if d = task then some q.heap.length else q.getJob d) = some p := by
        rcases e1 d hd with e | ⟨p, hp, _⟩
        · exact ⟨q.heap.length, by simp [e]⟩
        · by_cases e : d = task
          · exact ⟨q.heap.length, by simp [e]⟩
          · exact ⟨p, by simp [e, hp]⟩
      obtain ⟨p, hp⟩ := this
      refine ⟨p, by rw [hg, hp], ?_⟩
      rw [mem_addEdges_waitList]
      right
      exact List.mem_filterMap.2 ⟨d, hd, hp⟩

/-- C9, amended, on the queue holding `a`: `queueJob(b, {a})` is defined and
`queueJob(b, {c})` is not. -/
theorem queueJobDeps_defined_iff_witness :
    (((ctor : DependencyQueue Target).queueJob Target.a).queueJobDeps Target.b [Target.a]).isSome
      = true ∧
    (((ctor : DependencyQueue Target).queueJob Target.a).queueJobDeps Target.b [Target.c]).isSome
      = false :=
  ⟨((queueJobDeps_defined_iff ((ctor : DependencyQueue Target).queueJob Target.a)
      Target.b [Target.a] (by decide)).1).2 (by decide),
   by
    have h := (queueJobDeps_defined_iff ((ctor : DependencyQueue Target).queueJob Target.a)
      Target.b [Target.c] (by decide)).1
    cases hs : (((ctor : DependencyQueue Target).queueJob Target.a).queueJobDeps
      Target.b [Target.c]).isSome with
    | false => rfl
    | true => exact absurd (h.1 hs Target.c (List.mem_cons_self _ _)) (by decide)⟩

/-! ## Well-formedness is kept by every call -/

namespace DependencyQueue

theorem dropEdge_task (job : Nat) (deps : List Nat) (p : Nat) (j : Job T) :
    (dropEdge job deps p j).task = j.task := rfl

theorem dropEdge_waitList_nil (job : Nat) (deps : List Nat) (p : Nat) (j : Job T)
    (h : j.waitList = []) : (dropEdge job deps p j).waitList = [] := by
  simp only [dropEdge, h]
  split_ifs <;> rfl

theorem wf_ctor : WF (ctor : DependencyQueue T) := by
  refine ⟨by simp [ctor], by simp [ctor], by simp [ctor]⟩

theorem wf_queueJob {q : DependencyQueue T} (hwf : WF q) (task : T) :
    WF (q.queueJob task) := by
  obtain ⟨h1, h2, h3⟩ := hwf
  refine ⟨nodup_mapAssign _ _ h1, ?_, ?_⟩
  · intro e he
    rw [deref_queueJob]
    rcases mem_mapAssign he with e1 | e1
    · subst e1; simp
    · have := h2 e e1
      split_ifs with hn
      · rw [hn, deref_fresh] at this
        simp at this
      · exact this
  · intro p hp j hj
    have hj1 : (q.queueJob task).deref p = some j := hj
    rw [deref_queueJob] at hj1
    split_ifs at hj1 with hn
    · cases hj1; rfl
    · rw [queueJob_runnable] at hp
      rcases List.mem_append.1 hp with e | e
      · exact h3 p e j hj1
      · exact absurd (List.mem_singleton.1 e) hn

theorem wf_queueJobDeps {q q' : DependencyQueue T} {task : T} {deps : List T}
    (hwf : WF q) (hr : ∀ p ∈ q.runnable, p < q.heap.length)
    (h : q.queueJobDeps task deps = some q') : WF q' := by
  obtain ⟨h1, h2, h3⟩ := hwf
  obtain ⟨_, e2, e3, _, e5⟩ := queueJobDeps_some h
  refine ⟨by rw [e2]; exact nodup_mapAssign _ _ h1, ?_, ?_⟩
  · intro e he
    rw [e2] at he
    rw [e5]
    rcases mem_mapAssign he with e1 | e1
    · subst e1; simp [addEdges_task]
    · have := h2 e e1
      split_ifs with hn
      · rw [hn, deref_fresh] at this
        simp at this
      · cases hd : q.deref e.2 with
        | none => simp [hd] at this
        | some j0 => simpa [hd, addEdges_task] using this
  · intro p hp j hj
    have hj1 : q'.deref p = some j := hj
    rw [e5] at hj1
    rw [e3] at hp
    rcases List.mem_append.1 hp with e | e
    · have hn : p ≠ q.heap.length := Nat.ne_of_lt (hr p e)
      rw [if_neg hn] at hj1
      cases hd : q.deref p with
      | none => simp [hd] at hj1
      | some j0 =>
        simp only [hd, Option.map_some', Option.some.injEq] at hj1
        rw [← hj1, addEdges_waitList_ne hn]
        exact h3 p e j0 hd
    · split_ifs at e with hde
      · have hp1 := List.mem_singleton.1 e
        subst hp1
        subst hde
        simp [addEdges] at hj1
        rw [← hj1]
      · exact absurd e (List.not_mem_nil _)

theorem wf_addDependency {q q' : DependencyQueue T} {fromTask toTask : T}
    (hwf : WF q) (h : q.addDependency fromTask toTask = some q') : WF q' := by
  obtain ⟨h1, h2, h3⟩ := hwf
  obtain ⟨pf, pt, fj, _, _, e3, _, e5, e6, _, e8⟩ := addDependency_some h
  refine ⟨by rw [e5]; exact h1, ?_, ?_⟩
  · intro e he
    rw [e5] at he
    have := h2 e he
    rw [e8]
    cases hd : q.deref e.2 with
    | none => simp [hd] at this
    | some j0 => simpa [hd, addEdge_task] using this
  · intro p hp j hj
    have hj1 : q'.deref p = some j := hj
    rw [e8] at hj1
    cases hd : q.deref p with
    | none => simp [hd] at hj1
    | some j0 =>
      simp only [hd, Option.map_some', Option.some.injEq] at hj1
      have hpr : p ∈ q.runnable ∧ p ≠ pf := by
        rw [e6] at hp
        split_ifs at hp with hrun
        · have := List.mem_filter.1 hp
          exact ⟨this.1, by simpa using this.2⟩
        · refine ⟨hp, ?_⟩
          rintro rfl
          have := h3 p hp fj e3
          simp [Job.isRunnable, this] at hrun
      rw [← hj1]
      simp only [addEdge, hpr.2, if_false]
      exact h3 p hpr.1 j0 hd

theorem wf_dequeueJob {q q' : DependencyQueue T} {t : T}
    (hwf : WF q) (h : q.dequeueJob = some (t, q')) : WF q' := by
  obtain ⟨h1, h2, h3⟩ := hwf
  obtain ⟨p, j, e1, _, _, e4, e5⟩ := dequeueJob_some h
  have hder : ∀ x, q'.deref x = q.deref x := by intro x; simp [deref, e5]
  refine ⟨by rw [e4]; exact h1, ?_, ?_⟩
  · intro e he
    rw [e4] at he
    rw [hder]; exact h2 e he
  · intro x hx j1 hj1
    have hj2 : q'.deref x = some j1 := hj1
    rw [hder] at hj2
    exact h3 x (by rw [e1]; exact List.mem_cons_of_mem _ hx) j1 hj2

theorem wf_jobCompleted {q q' : DependencyQueue T} {task : T}
    (hwf : WF q) (h : q.jobCompleted task = some q') : WF q' := by
  have hlive := fun {t : T} {p : Nat} (hg : q.getJob t = some p) => hwf.live hg
  obtain ⟨h1, h2, h3⟩ := hwf
  obtain ⟨p, j, e1, e2, _, e4, ⟨k, e5⟩, _, e7⟩ := jobCompleted_some h
  refine ⟨by rw [e4]; exact nodup_mapErase _ h1, ?_, ?_⟩
  · intro e he
    rw [e4] at he
    obtain ⟨he1, he2⟩ := mem_mapErase.1 he
    have := h2 e he1
    have hne : e.2 ≠ p := by
      intro hep
      rw [hep, e2] at this
      obtain ⟨j1, hj1, hj2⟩ := hlive e1
      rw [e2] at hj1
      cases hj1
      simp only [Option.map_some', Option.some.injEq] at this
      exact he2 (this.symm.trans hj2)
    rw [e7, if_neg hne]
    cases hd : q.deref e.2 with
    | none => simp [hd] at this
    | some j0 => simpa [hd, dropEdge_task] using this
  · intro x hx j1 hj1
    have hj2 : q'.deref x = some j1 := hj1
    rw [e7] at hj2
    split_ifs at hj2 with hxp
    rw [e5] at hx
    have hxr : x ∈ q.runnable := by
      rcases List.mem_append.1 hx with e | e
      · exact e
      · exact absurd (List.eq_of_mem_replicate e) hxp
    cases hd : q.deref x with
    | none => simp [hd] at hj2
    | some j0 =>
      simp only [hd, Option.map_some', Option.some.injEq] at hj2
      rw [← hj2]
      exact dropEdge_waitList_nil _ _ _ _ (h3 x hxr j0 hd)

end DependencyQueue

/-! ## The invariant of reachable states -/

namespace DependencyQueue

theorem inv_ctor : Inv (ctor : DependencyQueue T) ⟨[], [], [], []⟩ := by
  refine ⟨wf_ctor, by simp, by simp, by simp, by simp [ctor], by simp⟩

theorem runnable_lt {q : DependencyQueue T} {h : History} (hi : Inv q h) :
    ∀ p ∈ q.runnable, p < q.heap.length := by
  intro p hp
  exact hi.2.1 p (hi.2.2.2.2.1.subset (List.mem_append_right _ hp))

theorem count_fresh {q : DependencyQueue T} {h : History} (hi : Inv q h) :
    h.unblocked.count q.heap.length = 0 := by
  apply List.count_eq_zero_of_not_mem
  intro hm
  exact lt_irrefl _ (hi.2.1 _ hm)

theorem inv_queueJob {q : DependencyQueue T} {h : History} (hi : Inv q h) (task : T) :
    Inv (q.queueJob task) { h with unblocked := h.unblocked ++ [q.heap.length] } := by
  have hfresh := count_fresh hi
  obtain ⟨h1, h2, h3, h4, h5, h6⟩ := hi
  refine ⟨wf_queueJob h1 task, ?_, ?_, ?_, ?_, ?_⟩
  · intro p hp
    rw [queueJob_heap_length]
    rcases List.mem_append.1 hp with e | e
    · exact Nat.lt_succ_of_lt (h2 p e)
    · rw [List.mem_singleton.1 e]; exact Nat.lt_succ_self _
  · intro e he
    rw [queueJob_heap_length]
    exact Nat.lt_succ_of_lt (h3 e he)
  · intro p j hj d hd
    have hj1 : (q.queueJob task).deref p = some j := hj
    rw [deref_queueJob] at hj1
    split_ifs at hj1 with hn
    · subst hn
      exact absurd (h3 _ hd) (lt_irrefl _)
    · exact h4 p j hj1 d hd
  · rw [queueJob_runnable, ← List.append_assoc]
    exact h5.append (List.Sublist.refl _)
  · intro p hp
    rw [deref_queueJob] at hp
    show List.count p (h.unblocked ++ [q.heap.length]) ≤ 1
    rw [List.count_append, List.count_singleton]
    split_ifs at hp with hn
    · subst hn
      rw [hfresh]; simp
    · have := h6 p hp
      have hne : ¬ (q.heap.length == p) = true := by
        simp only [beq_iff_eq]; exact fun e => hn e.symm
      rw [if_neg hne]
      exact this

theorem inv_queueJobDeps {q q' : DependencyQueue T} {h : History} (hi : Inv q h)
    {task : T} {deps : List T}
    (ht : q.isQueued task = false) (hd : ∀ d ∈ deps, q.isQueued d = true)
    (hq : q.queueJobDeps task deps = some q') :
    Inv q' { h with
      unblocked := h.unblocked ++ q'.runnable.drop q.runnable.length
      declared := h.declared ++
        (deps.filterMap q.getJob).map (fun d => (q.heap.length, d)) } := by
  have hfresh := count_fresh hi
  have hrl := runnable_lt hi
  obtain ⟨h1, h2, h3, h4, h5, h6⟩ := hi
  obtain ⟨_, e2, e3, e4, e5⟩ := queueJobDeps_some hq
  have hdrop : q'.runnable.drop q.runnable.length
      = if deps = [] then [q.heap.length] else [] := by
    rw [e3]; exact List.drop_left _ _
  have hfm : deps.filterMap (fun d => if d = task then some q.heap.length else q.getJob d)
      = deps.filterMap q.getJob := by
    apply List.filterMap_congr
    intro d hdm
    have : d ≠ task := by
      rintro rfl
      rw [hd d hdm] at ht
      exact Bool.noConfusion ht
    simp [this]
  rw [hfm] at e5
  have hsub : ∀ x ∈ (if deps = [] then [q.heap.length] else []), x = q.heap.length := by
    intro x hx
    split_ifs at hx
    · exact List.mem_singleton.1 hx
    · exact absurd hx (List.not_mem_nil _)
  refine ⟨wf_queueJobDeps h1 hrl hq, ?_, ?_, ?_, ?_, ?_⟩
  · intro p hp
    rw [e4]
    show p < q.heap.length + 1
    have hp1 : p ∈ h.unblocked ++ q'.runnable.drop q.runnable.length := hp
    rw [hdrop] at hp1
    rcases List.mem_append.1 hp1 with e | e
    · exact Nat.lt_succ_of_lt (h2 p e)
    · rw [hsub p e]; exact Nat.lt_succ_self _
  · intro e he
    rw [e4]
    have he1 : e ∈ h.declared ++
        (deps.filterMap q.getJob).map (fun d => (q.heap.length, d)) := he
    rcases List.mem_append.1 he1 with e1 | e1
    · exact Nat.lt_succ_of_lt (h3 e e1)
    · obtain ⟨d, _, hd2⟩ := List.mem_map.1 e1
      rw [← hd2]; exact Nat.lt_succ_self _
  · intro p j hj d hdm
    have hj1 : q'.deref p = some j := hj
    have hdm1 : (p, d) ∈ h.declared ++
        (deps.filterMap q.getJob).map (fun d => (q.heap.length, d)) := hdm
    rw [e5] at hj1
    by_cases hn : p = q.heap.length
    · subst hn
      simp only [if_true, Option.map_some', Option.some.injEq] at hj1
      rcases List.mem_append.1 hdm1 with e1 | e1
      · exact absurd (h3 _ e1) (lt_irrefl _)
      · obtain ⟨d1, hd1, hd2⟩ := List.mem_map.1 e1
        cases hd2
        left
        rw [← hj1, mem_addEdges_waitList]
        exact Or.inr hd1
    · rw [if_neg hn] at hj1
      cases hdp : q.deref p with
      | none => simp [hdp] at hj1
      | some j0 =>
        simp only [hdp, Option.map_some', Option.some.injEq] at hj1
        rcases List.mem_append.1 hdm1 with e1 | e1
        · rw [← hj1, addEdges_waitList_ne hn]
          exact h4 p j0 hdp d e1
        · obtain ⟨d1, _, hd2⟩ := List.mem_map.1 e1
          cases hd2
          exact absurd rfl hn
  · show (h.handed ++ q'.runnable).Sublist (h.unblocked ++ q'.runnable.drop q.runnable.length)
    rw [hdrop, e3, ← List.append_assoc]
    exact h5.append (List.Sublist.refl _)
  · intro p hp
    show List.count p (h.unblocked ++ q'.runnable.drop q.runnable.length) ≤ 1
    rw [hdrop, List.count_append]
    rw [e5] at hp
    by_cases hn : p = q.heap.length
    · subst hn
      rw [hfresh]
      split_ifs <;> simp
    · rw [if_neg hn] at hp
      have hp0 : (q.deref p).isSome := by
        cases hdp : q.deref p with
        | none => simp [hdp] at hp
        | some j0 => rfl
      have := h6 p hp0
      have hz : List.count p (if deps = [] then [q.heap.length] else []) = 0 := by
        apply List.count_eq_zero_of_not_mem
        intro hm
        exact hn (hsub p hm)
      rw [hz]; exact this

theorem inv_addDependency {q q' : DependencyQueue T} {h : History} (hi : Inv q h)
    {fromTask toTask : T} {pf pt : Nat}
    (hf : q.getJob fromTask = some pf) (ht : q.getJob toTask = some pt)
    (hq : q.addDependency fromTask toTask = some q') :
    Inv q' { h with declared := h.declared ++ [(pf, pt)] } := by
  obtain ⟨h1, h2, h3, h4, h5, h6⟩ := hi
  obtain ⟨pf1, pt1, fj, e1, e2, e3, _, _, e6, e7, e8⟩ := addDependency_some hq
  rw [hf] at e1; cases e1
  rw [ht] at e2; cases e2
  have hlive : ∀ x, (q'.deref x).isSome = (q.deref x).isSome := by
    intro x; rw [e8]; cases q.deref x <;> rfl
  refine ⟨wf_addDependency h1 hq, ?_, ?_, ?_, ?_, ?_⟩
  · intro p hp
    rw [e7]; exact h2 p hp
  · intro e he
    rw [e7]
    have he1 : e ∈ h.declared ++ [(pf, pt)] := he
    rcases List.mem_append.1 he1 with e1 | e1
    · exact h3 e e1
    · rw [List.mem_singleton.1 e1]
      exact deref_lt e3
  · intro p j hj d hdm
    have hj1 : q'.deref p = some j := hj
    have hdm1 : (p, d) ∈ h.declared ++ [(pf, pt)] := hdm
    rw [e8] at hj1
    cases hdp : q.deref p with
    | none => simp [hdp] at hj1
    | some j0 =>
      simp only [hdp, Option.map_some', Option.some.injEq] at hj1
      rw [← hj1]
      rcases List.mem_append.1 hdm1 with e1 | e1
      · rcases h4 p j0 hdp d e1 with e | e
        · left
          simp only [addEdge]
          split_ifs
          · exact (mem_setInsert _ _ _).2 (Or.inl e)
          · exact e
        · exact Or.inr e
      · have := List.mem_singleton.1 e1
        cases this
        left
        simp [addEdge, mem_setInsert]
  · show (h.handed ++ q'.runnable).Sublist h.unblocked
    refine List.Sublist.trans ?_ h5
    apply List.Sublist.append (List.Sublist.refl _)
    rw [e6]
    split_ifs
    · exact List.filter_sublist _
    · exact List.Sublist.refl _
  · intro p hp
    rw [hlive] at hp
    exact h6 p hp

theorem inv_dequeueJob {q q' : DependencyQueue T} {h : History} (hi : Inv q h)
    {t : T} {p : Nat} (hp : q.runnable.head? = some p)
    (hq : q.dequeueJob = some (t, q')) :
    Inv q' { h with handed := h.handed ++ [p] } := by
  obtain ⟨h1, h2, h3, h4, h5, h6⟩ := hi
  obtain ⟨p1, j, e1, _, _, _, e5⟩ := dequeueJob_some hq
  rw [e1] at hp
  simp only [List.head?_cons, Option.some.injEq] at hp
  subst hp
  have hder : ∀ x, q'.deref x = q.deref x := by intro x; simp [deref, e5]
  refine ⟨wf_dequeueJob h1 hq, ?_, ?_, ?_, ?_, ?_⟩
  · intro x hx
    rw [e5]; exact h2 x hx
  · intro e he
    rw [e5]; exact h3 e he
  · intro x j1 hj1 d hdm
    have hj2 : q'.deref x = some j1 := hj1
    rw [hder] at hj2
    exact h4 x j1 hj2 d hdm
  · show ((h.handed ++ [p1]) ++ q'.runnable).Sublist h.unblocked
    rw [e1] at h5
    simpa using h5
  · intro x hx
    rw [hder] at hx
    exact h6 x hx

theorem inv_jobCompleted {q q' : DependencyQueue T} {h : History} (hi : Inv q h)
    {task : T} {p : Nat} (hg : q.getJob task = some p)
    (hq : q.jobCompleted task = some q') :
    Inv q' { h with
      unblocked := h.unblocked ++ q'.runnable.drop q.runnable.length
      completed := h.completed ++ [p] } := by
  obtain ⟨h1, h2, h3, h4, h5, h6⟩ := hi
  obtain ⟨p1, j, e1, e2, _, _, ⟨k, e5⟩, e6, e7⟩ := jobCompleted_some hq
  rw [hg] at e1; cases e1
  have hdrop : q'.runnable.drop q.runnable.length = List.replicate k p := by
    rw [e5]; exact List.drop_left _ _
  refine ⟨wf_jobCompleted h1 hq, ?_, ?_, ?_, ?_, ?_⟩
  · intro x hx
    have hx1 : x ∈ h.unblocked ++ q'.runnable.drop q.runnable.length := hx
    rw [hdrop] at hx1
    rw [e6]
    rcases List.mem_append.1 hx1 with e | e
    · exact h2 x e
    · rw [List.eq_of_mem_replicate e]; exact deref_lt e2
  · intro e he
    rw [e6]; exact h3 e he
  · intro x j1 hj1 d hdm
    have hj2 : q'.deref x = some j1 := hj1
    have hdm1 : (x, d) ∈ h.declared := hdm
    show d ∈ j1.waitList ∨ d ∈ h.completed ++ [p]
    rw [e7] at hj2
    split_ifs at hj2 with hxp
    cases hdx : q.deref x with
    | none => simp [hdx] at hj2
    | some j0 =>
      simp only [hdx, Option.map_some', Option.some.injEq] at hj2
      rw [← hj2]
      rcases h4 x j0 hdx d hdm1 with e | e
      · by_cases hdp : d = p
        · right; simp [hdp]
        · left
          simp only [dropEdge]
          split_ifs
          · exact (mem_setErase _ _ _).2 ⟨e, hdp⟩
          · exact e
      · right; exact List.mem_append_left _ e
  · show (h.handed ++ q'.runnable).Sublist (h.unblocked ++ q'.runnable.drop q.runnable.length)
    rw [hdrop, e5, ← List.append_assoc]
    exact h5.append (List.Sublist.refl _)
  · intro x hx
    show List.count x (h.unblocked ++ q'.runnable.drop q.runnable.length) ≤ 1
    rw [hdrop, List.count_append]
    rw [e7] at hx
    split_ifs at hx with hxp
    · simp at hx
    · have hx0 : (q.deref x).isSome := by
        cases hdx : q.deref x with
        | none => simp [hdx] at hx
        | some j0 => rfl
      have hz : List.count x (List.replicate k p) = 0 := by
        apply List.count_eq_zero_of_not_mem
        intro hm
        exact hxp (List.eq_of_mem_replicate hm)
      rw [hz]; exact h6 x hx0

theorem reach_inv {q : DependencyQueue T} {h : History} (hr : Reach q h) : Inv q h := by
  induction hr with
  | ctor => exact inv_ctor
  | queueJob task _ _ ih => exact inv_queueJob ih task
  | queueJobDeps task deps _ ht hd hq ih => exact inv_queueJobDeps ih ht hd hq
  | addDependency fromTask toTask pf pt _ hf ht hq ih => exact inv_addDependency ih hf ht hq
  | dequeueJob t p _ _ hp hq ih => exact inv_dequeueJob ih hp hq
  | jobCompleted task p _ hg _ hq ih => exact inv_jobCompleted ih hg hq

end DependencyQueue

/-! ## Order of the runnable list -/

theorem pair_sublist_of_mem {x y : Nat} (hxy : x ≠ y) :
    ∀ {l : List Nat}, x ∈ l → y ∈ l → [x, y].Sublist l ∨ [y, x].Sublist l := by
  intro l
  induction l with
  | nil => intro hx _; exact absurd hx (List.not_mem_nil _)
  | cons a l ih =>
    intro hx hy
    by_cases hax : a = x
    · subst hax
      have hy1 : y ∈ l := by
        rcases List.mem_cons.1 hy with e | e
        · exact absurd e.symm hxy
        · exact e
      exact Or.inl (List.Sublist.cons₂ _ (List.singleton_sublist.2 hy1))
    · have hx1 : x ∈ l := by
        rcases List.mem_cons.1 hx with e | e
        · exact absurd e.symm hax
        · exact e
      by_cases hay : a = y
      · subst hay
        exact Or.inr (List.Sublist.cons₂ _ (List.singleton_sublist.2 hx1))
      · have hy1 : y ∈ l := by
          rcases List.mem_cons.1 hy with e | e
          · exact absurd e.symm hay
          · exact e
        rcases ih hx1 hy1 with e | e
        · exact Or.inl (List.Sublist.cons _ e)
        · exact Or.inr (List.Sublist.cons _ e)

theorem triple_sublist_of_both_orders {x y : Nat} (hxy : x ≠ y) :
    ∀ {l : List Nat}, [x, y].Sublist l → [y, x].Sublist l →
      [x, y, x].Sublist l ∨ [y, x, y].Sublist l := by
  intro l
  induction l with
  | nil => intro h _; cases h
  | cons a l ih =>
    intro h1 h2
    cases h1 with
    | cons _ h1' =>
      cases h2 with
      | cons _ h2' =>
        rcases ih h1' h2' with e | e
        · exact Or.inl (List.Sublist.cons _ e)
        · exact Or.inr (List.Sublist.cons _ e)
      | cons₂ _ h2' =>
        exact Or.inr (List.Sublist.cons₂ _ h1')
    | cons₂ _ h1' =>
      cases h2 with
      | cons _ h2' => exact Or.inl (List.Sublist.cons₂ _ h2')
      | cons₂ _ h2' => exact absurd rfl hxy

theorem not_both_orders {x y : Nat} (hxy : x ≠ y) {l : List Nat}
    (hx : l.count x ≤ 1) (hy : l.count y ≤ 1)
    (h1 : [x, y].Sublist l) (h2 : [y, x].Sublist l) : False := by
  have hyx : y ≠ x := fun e => hxy e.symm
  rcases triple_sublist_of_both_orders hxy h1 h2 with e | e
  · have := e.count_le x
    simp [List.count_cons, hyx] at this
    omega
  · have := e.count_le y
    simp [List.count_cons, hxy] at this
    omega

namespace DependencyQueue

end DependencyQueue

/-! ## Jobs that block one another -/

theorem stuck_dequeueJob {q q1 : DependencyQueue T} {out c : List Nat} {t : T} {p : Nat}
    (hs : Stuck q out c) (hp : q.runnable.head? = some p)
    (hd : q.dequeueJob = some (t, q1)) : Stuck q1 (p :: out) c := by
  obtain ⟨p1, j, e1, _, _, e4, e5⟩ := dequeueJob_some hd
  rw [e1] at hp
  simp only [List.head?_cons, Option.some.injEq] at hp
  subst hp
  refine ⟨hs.1, ?_⟩
  intro pc hpc
  obtain ⟨h1, h2, jc, h3, h4, h5⟩ := hs.2 pc hpc
  have hder : q1.deref pc = q.deref pc := by simp [deref, e5]
  have hget : ∀ x, q1.getJob x = q.getJob x := by intro x; simp [getJob, e4]
  refine ⟨?_, ?_, jc, ?_, ?_, h5⟩
  · intro hm
    exact h1 (by rw [e1]; exact List.mem_cons_of_mem _ hm)
  · intro hm
    rcases List.mem_cons.1 hm with e | e
    · exact h1 (by rw [e1, e]; exact List.mem_cons_self _ _)
    · exact h2 e
  · rw [hder]; exact h3
  · rw [hget]; exact h4

theorem stuck_jobCompleted {q q1 : DependencyQueue T} {out c : List Nat} {task : T} {p : Nat}
    (hs : Stuck q out c) (hg : q.getJob task = some p) (hp : p ∈ out)
    (hd : q.jobCompleted task = some q1) :
    Stuck q1 (out.filter (fun x => decide (x ≠ p))) c := by
  obtain ⟨p1, j, e1, _, _, e4, ⟨k, e5⟩, _, e7⟩ := jobCompleted_some hd
  rw [hg] at e1; cases e1
  have hpc : ∀ x ∈ c, x ≠ p := by
    rintro x hx rfl
    exact (hs.2 x hx).2.1 hp
  refine ⟨hs.1, ?_⟩
  intro pc hpcm
  obtain ⟨h1, h2, jc, h3, h4, d, h5, h6⟩ := hs.2 pc hpcm
  have hne := hpc pc hpcm
  have h3e : q.deref pc = some jc := h3
  refine ⟨?_, ?_, dropEdge p j.usedBy pc jc, ?_, ?_, d, ?_, h6⟩
  · rw [e5]
    intro hm
    rcases List.mem_append.1 hm with e | e
    · exact h1 e
    · exact hne (List.eq_of_mem_replicate e)
  · intro hm
    exact h2 (List.mem_filter.1 hm).1
  · show q1.deref pc = some _
    rw [e7, if_neg hne, h3e]; rfl
  · show q1.getJob jc.task = some pc
    have htask : jc.task ≠ task := by
      intro e
      rw [e, hg] at h4
      exact hne (Option.some.inj h4).symm
    simp only [getJob, e4, mapFind_mapErase, htask, if_false]
    exact h4
  · simp only [dropEdge]
    split_ifs
    · exact (mem_setErase _ _ _).2 ⟨h5, hpc d h6⟩
    · exact h5

theorem stuck_size_pos {q : DependencyQueue T} {out c : List Nat} (hs : Stuck q out c) :
    0 < q.size := by
  obtain ⟨hne, h⟩ := hs
  cases c with
  | nil => exact absurd rfl hne
  | cons pc rest =>
    obtain ⟨_, _, jc, _, h4, _⟩ := h pc (List.mem_cons_self _ _)
    have := mapFind_mem h4
    exact List.length_pos_of_mem this

theorem Symbol.position_of_not_mem {str : ByteString} {pool : SymbolPool}
    (h : str ∉ pool) : Symbol.position str pool = pool.length := by
  induction pool with
  | nil => rfl
  | cons s rest ih =>
    have h1 : s ≠ str := fun e => h (e ▸ List.mem_cons_self _ _)
    have h2 : str ∉ rest := fun e => h (List.mem_cons_of_mem _ e)
    simp [Symbol.position, h1, ih h2]

theorem Symbol.position_append {str : ByteString} {pool : SymbolPool} (ext : SymbolPool)
    (h : str ∈ pool) : Symbol.position str (pool ++ ext) = Symbol.position str pool := by
  induction pool with
  | nil => simp at h
  | cons s rest ih =>
    by_cases h1 : s = str
    · simp [Symbol.position, h1]
    · have h2 : str ∈ rest := by
        rcases List.mem_cons.1 h with e | e
        · exact absurd e.symm h1
        · exact e
      simp [Symbol.position, h1, ih h2]

theorem Symbol.position_append_self {str : ByteString} {pool : SymbolPool}
    (h : str ∉ pool) : Symbol.position str (pool ++ [str]) = pool.length := by
  induction pool with
  | nil => simp [Symbol.position]
  | cons s rest ih =>
    have h1 : s ≠ str := fun e => h (e ▸ List.mem_cons_self _ _)
    have h2 : str ∉ rest := fun e => h (List.mem_cons_of_mem _ e)
    simp [Symbol.position, h1, ih h2]

theorem Symbol.position_inj {s1 s2 : ByteString} {pool : SymbolPool}
    (h1 : s1 ∈ pool) (h2 : s2 ∈ pool) :
    Symbol.position s1 pool = Symbol.position s2 pool ↔ s1 = s2 := by
  constructor
  · intro h
    induction pool with
    | nil => simp at h1
    | cons s rest ih =>
      simp only [Symbol.position] at h
      by_cases e1 : s = s1
      · by_cases e2 : s = s2
        · exact e1.symm.trans e2
        · rw [if_pos e1, if_neg e2] at h
          exact absurd h (by omega)
      · by_cases e2 : s = s2
        · rw [if_neg e1, if_pos e2] at h
          exact absurd h (by omega)
        · simp only [e1, e2, if_false, Nat.add_right_cancel_iff] at h
          have m1 : s1 ∈ rest := by
            rcases List.mem_cons.1 h1 with e | e
            · exact absurd e.symm e1
            · exact e
          have m2 : s2 ∈ rest := by
            rcases List.mem_cons.1 h2 with e | e
            · exact absurd e.symm e2
            · exact e
          exact ih m1 m2 h
  · rintro rfl; rfl

theorem Symbol.get_fst (pool : SymbolPool) (str : ByteString) :
    (Symbol.get pool str).1 = Symbol.position str (Symbol.get pool str).2 := by
  unfold Symbol.get
  split_ifs with h
  · rfl
  · simp [Symbol.position_append_self h]

theorem Symbol.get_mem (pool : SymbolPool) (str : ByteString) :
    str ∈ (Symbol.get pool str).2 := by
  unfold Symbol.get
  split_ifs with h
  · exact h
  · simp

theorem Symbol.get_prefix (pool : SymbolPool) (str : ByteString) :
    ∃ ext, (Symbol.get pool str).2 = pool ++ ext := by
  unfold Symbol.get
  split_ifs with h
  · exact ⟨[], by simp⟩
  · exact ⟨[str], rfl⟩

theorem internAll_prefix (strs : List ByteString) :
    ∀ pool : SymbolPool, ∃ ext, internAll pool strs = pool ++ ext := by
  induction strs with
  | nil => intro pool; exact ⟨[], by simp [internAll]⟩
  | cons str rest ih =>
    intro pool
    obtain ⟨e1, h1⟩ := Symbol.get_prefix pool str
    obtain ⟨e2, h2⟩ := ih (Symbol.get pool str).2
    refine ⟨e1 ++ e2, ?_⟩
    have : internAll pool (str :: rest) = internAll (Symbol.get pool str).2 rest := rfl
    rw [this, h2, h1, List.append_assoc]

/-- C10: whatever the pool holds before, and whatever strings `between` are
interned between the two calls, the handle that `SymbolRef::get` gives for `s1`
and the handle it later gives for `s2` compare equal under `operator ==`
exactly when `s1` and `s2` are the same byte string. -/
theorem SymbolRef.get_eq_iff (pool : SymbolPool) (between : List ByteString)
    (s1 s2 : ByteString) :
    SymbolRef.eq (SymbolRef.get pool s1).1
      (SymbolRef.get (internAll (SymbolRef.get pool s1).2 between) s2).1 = true
      ↔ s1 = s2 := by
  obtain ⟨e1, h1⟩ := internAll_prefix between (Symbol.get pool s1).2
  obtain ⟨e2, h2⟩ := Symbol.get_prefix (internAll (Symbol.get pool s1).2 between) s2
  have hm1 : s1 ∈ (Symbol.get pool s1).2 := Symbol.get_mem pool s1
  have hm2 := Symbol.get_mem (internAll (Symbol.get pool s1).2 between) s2
  have hfin : (Symbol.get (internAll (Symbol.get pool s1).2 between) s2).2
      = (Symbol.get pool s1).2 ++ (e1 ++ e2) := by
    rw [h2, h1, List.append_assoc]
  have hi1 : (Symbol.get pool s1).1
      = Symbol.position s1 (Symbol.get (internAll (Symbol.get pool s1).2 between) s2).2 := by
    rw [hfin, Symbol.position_append _ hm1]
    exact Symbol.get_fst pool s1
  have hi2 := Symbol.get_fst (internAll (Symbol.get pool s1).2 between) s2
  have hm1f : s1 ∈ (Symbol.get (internAll (Symbol.get pool s1).2 between) s2).2 := by
    rw [hfin]; exact List.mem_append_left _ hm1
  simp only [SymbolRef.eq, SymbolRef.get, decide_eq_true_eq, Option.some.injEq]
  rw [hi1, hi2]
  exact Symbol.position_inj hm1f hm2

/-! ## Symbol handles: the null test -/

/-- C17, the code at the failing inputs: `isNull()` is `false` for the
default-constructed (null) `SymbolRef` and `true` for every `SymbolRef` that
`SymbolRef::get` returns, and for every `SymbolRef` it is equal to the
explicit `bool` conversion, not its negation. -/
theorem SymbolRef.isNull_inverted :
    SymbolRef.null.isNull = false ∧
    (∀ (pool : SymbolPool) (str : ByteString), (SymbolRef.get pool str).1.isNull = true) ∧
    ∀ r : SymbolRef, r.isNull = r.toBool := by
  refine ⟨by decide, ?_, fun _ => rfl⟩
  intro pool str
  simp [SymbolRef.isNull, SymbolRef.get]

/-! ## Files -/

/-- C18, the code at the failing inputs: destroying a `File` that owns the
valid descriptor 3 closes nothing, as for every valid `File`, and destroying an
invalid `File`, also the one left by `take()`, calls `close(-1)`. -/
theorem File.destroy_inverted :
    File.destroy ⟨3⟩ = [] ∧
    (∀ f : File, f.isValid = true → File.destroy f = []) ∧
    File.destroy File.invalid = [-1] ∧
    File.destroy (File.take ⟨3⟩).2 = [-1] ∧
    ∀ f : File, f.isValid = false → File.destroy f = [-1] := by
  refine ⟨by decide, ?_, by decide, by decide, ?_⟩
  · intro f hf
    simp only [File.isValid, bne_iff_ne, ne_eq] at hf
    simp [File.destroy, hf]
  · intro f hf
    have : f.fd = -1 := by
      simpa [File.isValid] using hf
    simp [File.destroy, this]

/-! ## Exit codes -/

/-- C19: the enumerators of `ExitCode` have the values 0 to 4 in the order OK,
user error, no build files, invalid build script, target not found, and no two
the same; `main` returns what `Driver::run` returns, converted to `int`; and
`Driver::run` returns the status `c` that `Options::parse` gave when it is not
`EXITCODE_OK`. -/
theorem exit_codes (c : ExitCode) (parsed : Option ExitCode)
    (hc : c ≠ ExitCode.EXITCODE_OK) :
    ExitCode.EXITCODE_OK.toInt = 0 ∧ ExitCode.EXITCODE_USER.toInt = 1 ∧
    ExitCode.EXITCODE_NOBUILD.toInt = 2 ∧ ExitCode.EXITCODE_BADBUILD.toInt = 3 ∧
    ExitCode.EXITCODE_NOTARGET.toInt = 4 ∧
    Function.Injective ExitCode.toInt ∧
    main parsed = (Driver.run parsed).map ExitCode.toInt ∧
    Driver.run (some c) = some c ∧ main (some c) = some c.toInt := by
  refine ⟨rfl, rfl, rfl, rfl, rfl, ?_, rfl, ?_, ?_⟩
  · intro a b hab
    cases a <;> cases b <;> first | rfl | (exact absurd hab (by decide))
  · simp [Driver.run, hc]
  · simp [main, Driver.run, hc]

/-- C19 for the status `EXITCODE_NOTARGET`: `Driver::run` returns it and `main`
returns 4. -/
theorem exit_codes_witness :
    Driver.run (some ExitCode.EXITCODE_NOTARGET) = some ExitCode.EXITCODE_NOTARGET ∧
    main (some ExitCode.EXITCODE_NOTARGET) = some 4 :=
  (exit_codes ExitCode.EXITCODE_NOTARGET none (by decide)).2.2.2.2.2.2.2

/-! ## Handing a job out does not remove it -/

/-- C20: when the runnable list starts with a live job `p`, `dequeueJob` is
defined and returns the task of `p`; it takes `p` off the front of the runnable
list, so `getRunnableCount()` is one less, and leaves `size()` and `isQueued(u)`
for every task `u` as they were.  Nor do `queueJob` and `addDependency`
unqueue a task: of the calls only `jobCompleted` does. -/
theorem dequeueJob_keeps_queue (q : DependencyQueue T) (p : Nat) (j : Job T)
    (hr : q.runnable.head? = some p) (hj : q.deref p = some j) :
    (∃ q', q.dequeueJob = some (j.task, q') ∧
      q.runnable = p :: q'.runnable ∧
      q'.size = q.size ∧ (∀ u, q'.isQueued u = q.isQueued u) ∧
      q'.getRunnableCount + 1 = q.getRunnableCount) ∧
    ∀ u, q.isQueued u = true →
      (∀ t, (q.queueJob t).isQueued u = true) ∧
      (∀ t deps q2, q.queueJobDeps t deps = some q2 → q2.isQueued u = true) ∧
      (∀ t1 t2 q2, q.addDependency t1 t2 = some q2 → q2.isQueued u = true) := by
  constructor
  · cases hrun : q.runnable with
    | nil => rw [hrun] at hr; simp at hr
    | cons p1 rest =>
      rw [hrun] at hr
      simp only [List.head?_cons, Option.some.injEq] at hr
      subst hr
      refine ⟨{ q with runnable := rest }, ?_, rfl, rfl, fun _ => rfl, ?_⟩
      · simp [dequeueJob, hrun, hj]
      · simp [getRunnableCount, hrun]
  · intro u hu
    have hu1 : (mapFind q.queue u).isSome = true := hu
    refine ⟨?_, ?_, ?_⟩
    · intro t
      simp only [isQueued, getJob, queueJob_queue, mapFind_mapAssign]
      split_ifs
      · rfl
      · exact hu1
    · intro t deps q2 h2
      obtain ⟨_, e2, _, _, _⟩ := queueJobDeps_some h2
      simp only [isQueued, getJob, e2, mapFind_mapAssign]
      split_ifs
      · rfl
      · exact hu1
    · intro t1 t2 q2 h2
      obtain ⟨_, _, _, _, _, _, _, e5, _, _, _⟩ := addDependency_some h2
      simp only [isQueued, getJob, e5]
      exact hu1

/-- C20 after `queueJob(a)` and `queueJob(b, {a})`: `dequeueJob` returns `a`,
both tasks are still queued, `size()` is still 2 and nothing is runnable any
more. -/
theorem dequeueJob_keeps_queue_witness :
    ∃ q' : DependencyQueue Target,
      (⟨[some ⟨Target.a, [], [1]⟩, some ⟨Target.b, [0], []⟩],
        [(Target.a, 0), (Target.b, 1)], [0]⟩ : DependencyQueue Target).dequeueJob
        = some (Target.a, q') ∧
      q'.size = 2 ∧ q'.isQueued Target.a = true ∧ q'.isQueued Target.b = true ∧
      q'.getRunnableCount + 1 = 1 :=
  (dequeueJob_keeps_queue
    (⟨[some ⟨Target.a, [], [1]⟩, some ⟨Target.b, [0], []⟩],
      [(Target.a, 0), (Target.b, 1)], [0]⟩ : DependencyQueue Target)
    0 ⟨Target.a, [], [1]⟩ (by decide) (by decide)).1.elim
    fun q' hq' => ⟨q', hq'.1, hq'.2.2.1, (hq'.2.2.2.1 Target.a).trans (by decide),
      (hq'.2.2.2.1 Target.b).trans (by decide), hq'.2.2.2.2⟩

/-! ## Existence checks -/

/-- C13: when the system call of an existence check fails with `errno` `e`,
each of `exists()`, `isFile()` and `isDirectory()` returns `false` if `e` is
`EACCES`, `ELOOP`, `ENAMETOOLONG`, `ENOENT` or `ENOTDIR`, and raises a
`system_error` carrying `e` for every other `e`. -/
theorem path_checks_on_errno (h : Host) (p : Path) (e : Int)
    (ha : h.access p.name = Sys.fail e) (hs : h.stat p.name = Sys.fail e) :
    Path.exists h p =
      (if e ∈ [h.EACCES, h.ELOOP, h.ENAMETOOLONG, h.ENOENT, h.ENOTDIR]
        then Outcome.returned false else Outcome.raised (Exn.system_error e)) ∧
    Path.isFile h p =
      (if e ∈ [h.EACCES, h.ELOOP, h.ENAMETOOLONG, h.ENOENT, h.ENOTDIR]
        then Outcome.returned false else Outcome.raised (Exn.system_error e)) ∧
    Path.isDirectory h p =
      (if e ∈ [h.EACCES, h.ELOOP, h.ENAMETOOLONG, h.ENOENT, h.ENOTDIR]
        then Outcome.returned false else Outcome.raised (Exn.system_error e)) := by
  have hh : Path.handlePathError h e e =
      (if e ∈ [h.EACCES, h.ELOOP, h.ENAMETOOLONG, h.ENOENT, h.ENOTDIR]
        then Outcome.returned false else Outcome.raised (Exn.system_error e)) := by
    unfold Path.handlePathError
    simp only [List.mem_cons, List.mem_singleton, List.not_mem_nil, or_false]
  refine ⟨?_, ?_, ?_⟩
  · simp only [Path.exists, ha, hh]
  · simp only [Path.isFile, hs, hh]
  · simp only [Path.isDirectory, hs, hh]

/-- C13 on a Linux host: with `ENAMETOOLONG` (36) the three checks return
`false`, with `EIO` (5) they raise `system_error` 5. -/
theorem path_checks_on_errno_witness :
    (Path.exists (Host.failing 36 []) ⟨"/x".toList⟩ = Outcome.returned false ∧
      Path.isFile (Host.failing 36 []) ⟨"/x".toList⟩ = Outcome.returned false ∧
      Path.isDirectory (Host.failing 36 []) ⟨"/x".toList⟩ = Outcome.returned false) ∧
    (Path.exists (Host.failing 5 []) ⟨"/x".toList⟩ = Outcome.raised (Exn.system_error 5) ∧
      Path.isFile (Host.failing 5 []) ⟨"/x".toList⟩ = Outcome.raised (Exn.system_error 5) ∧
      Path.isDirectory (Host.failing 5 []) ⟨"/x".toList⟩
        = Outcome.raised (Exn.system_error 5)) :=
  have h1 := path_checks_on_errno (Host.failing 36 []) ⟨"/x".toList⟩ 36 rfl rfl
  have h2 := path_checks_on_errno (Host.failing 5 []) ⟨"/x".toList⟩ 5 rfl rfl
  ⟨⟨h1.1.trans (by decide), h1.2.1.trans (by decide), h1.2.2.trans (by decide)⟩,
   ⟨h2.1.trans (by decide), h2.2.1.trans (by decide), h2.2.2.trans (by decide)⟩⟩

/-- C15, the code at the failing inputs: on a Linux host `isFile()` returns
`true` for a socket (mode 0140755), whose file type is not `S_IFREG`, and
`isDirectory()` returns `true` for a block device (mode 0060660), whose file
type is not `S_IFDIR`: the tests are `(st_mode & S_IFREG) != 0` and
`(st_mode & S_IFDIR) != 0`, not comparisons of `st_mode & S_IFMT`. -/
theorem isFile_true_for_socket :
    Path.isFile (Host.withMode 0o140755) ⟨"/s".toList⟩ = Outcome.returned true ∧
    (0o140755 &&& (Host.withMode 0o140755).S_IFMT) ≠ (Host.withMode 0o140755).S_IFREG ∧
    Path.isDirectory (Host.withMode 0o060660) ⟨"/d".toList⟩ = Outcome.returned true ∧
    (0o060660 &&& (Host.withMode 0o060660).S_IFMT) ≠ (Host.withMode 0o060660).S_IFDIR := by
  decide

/-- C14, the code at the failing input: `Path p("a//")` holds "a/"; on every
host each of `p.exists("/")`, `p.isFile("/")` and `p.isDirectory("/")` raises
`std::out_of_range` and leaves "a" in `p`: the append removed the slash that
was there before the call, and `name.erase(idx)` is past the end, in the `try`
block and again in the handler. -/
theorem check_appended_loses_slash (h : Host) :
    (Path.ofString "a//".toList).str = "a/".toList ∧
    Path.existsAt h (Path.ofString "a//".toList) "/".toList
      = (Outcome.raised Exn.out_of_range, ⟨"a".toList⟩) ∧
    Path.isFileAt h (Path.ofString "a//".toList) "/".toList
      = (Outcome.raised Exn.out_of_range, ⟨"a".toList⟩) ∧
    Path.isDirectoryAt h (Path.ofString "a//".toList) "/".toList
      = (Outcome.raised Exn.out_of_range, ⟨"a".toList⟩) := by
  have hp : Path.ofString "a//".toList = ⟨"a/".toList⟩ := by decide
  have ha : Path.appendNormalisedPath "a/".toList "/".toList = "a".toList := by decide
  have he : Path.erase "a".toList 2 = Outcome.raised Exn.out_of_range := by decide
  have key : ∀ check : Path → Outcome Bool,
      Path.checkAppended check ⟨"a/".toList⟩ "/".toList
        = (Outcome.raised Exn.out_of_range, ⟨"a".toList⟩) := by
    intro check
    simp only [Path.checkAppended, ha]
    have hl : ("a/".toList).length = 2 := by decide
    rw [hl]
    cases check ⟨"a".toList⟩ with
    | returned result => simp only [he]
    | raised e => simp only [he]
  refine ⟨by rw [hp]; rfl, ?_, ?_, ?_⟩
  · rw [hp]; exact key _
  · rw [hp]; exact key _
  · rw [hp]; exact key _

/-! ## Paths without components -/

theorem Path.isalpha_ne_separator {c : Char} (h : Path.isalpha c = true) :
    c ≠ Path.Separator := by
  rintro rfl
  exact absurd h (by decide)

/-- C16: for every path for which `hasComponents()` is false, `pop_back()`
returns and leaves the path string as it was. -/
theorem pop_back_without_components (p : Path) (h : p.hasComponents = false) :
    p.pop_back = Outcome.returned p := by
  obtain ⟨name⟩ := p
  have hcolon : ¬ (':' : Char) = Path.Separator := by decide
  rcases name with _ | ⟨a, _ | ⟨b, _ | ⟨c, _ | ⟨d, rest⟩⟩⟩⟩
  · rfl
  · -- one character: the Unix root
    have ha : a = Path.Separator := by
      simpa [Path.hasComponents, Path.isUnixRoot, Path.isVolumeRoot, Path.isVolumePrefix,
        Path.charAt] using h
    subst ha
    simp [Path.pop_back, Path.find_last_of, Path.findLastFrom, Path.erase, Outcome.map]
  · -- two characters: a volume prefix
    have hab : b = ':' ∧ Path.isalpha a = true := by
      simpa [Path.hasComponents, Path.isUnixRoot, Path.isVolumeRoot, Path.isVolumePrefix,
        Path.charAt] using h
    obtain ⟨hb, ha⟩ := hab
    subst hb
    have hne := Path.isalpha_ne_separator ha
    simp [Path.pop_back, Path.find_last_of, Path.findLastFrom, Path.erase, Outcome.map,
      Path.hasVolumePrefix, Path.charAt, hne, hcolon, ha]
  · -- three characters: a volume root
    have habc : (c = Path.Separator ∧ b = ':') ∧ Path.isalpha a = true := by
      simpa [Path.hasComponents, Path.isUnixRoot, Path.isVolumeRoot, Path.isVolumePrefix,
        Path.charAt] using h
    obtain ⟨⟨hc, hb⟩, ha⟩ := habc
    subst hb hc
    have hne := Path.isalpha_ne_separator ha
    simp [Path.pop_back, Path.find_last_of, Path.findLastFrom, Path.erase, Outcome.map,
      Path.hasVolumeRoot, Path.charAt, hne, hcolon, ha]
  · -- four characters or more: the path has components
    simp [Path.hasComponents, Path.isUnixRoot, Path.isVolumeRoot, Path.isVolumePrefix] at h

/-- C16 on the empty path, the Unix root, a volume root and a volume prefix. -/
theorem pop_back_without_components_witness :
    Path.pop_back ⟨[]⟩ = Outcome.returned ⟨[]⟩ ∧
    Path.pop_back ⟨"/".toList⟩ = Outcome.returned ⟨"/".toList⟩ ∧
    Path.pop_back ⟨"C:/".toList⟩ = Outcome.returned ⟨"C:/".toList⟩ ∧
    Path.pop_back ⟨"C:".toList⟩ = Outcome.returned ⟨"C:".toList⟩ :=
  ⟨pop_back_without_components ⟨[]⟩ (by decide),
   pop_back_without_components ⟨"/".toList⟩ (by decide),
   pop_back_without_components ⟨"C:/".toList⟩ (by decide),
   pop_back_without_components ⟨"C:".toList⟩ (by decide)⟩

/-! ## The search for the roots -/

theorem findRootsLoop_sourceTree (fuel : Nat) :
    ∀ topSourceDir : Path,
      findRootsLoop Host.sourceTree fuel ⟨"/a".toList⟩ topSourceDir = FindRoots.running := by
  induction fuel with
  | zero => intro _; rfl
  | succ n ih =>
    intro topSourceDir
    have h1 : Path.isFileAt Host.sourceTree ⟨"/a".toList⟩ BUILD_CACHEDMODEL
        = (Outcome.returned false, ⟨"/a".toList⟩) := by decide
    have h2 : Path.isFileAt Host.sourceTree ⟨"/a".toList⟩ BUILD_FILENAME
        = (Outcome.returned true, ⟨"/a".toList⟩) := by decide
    have h3 : Path.isRoot ⟨"/a".toList⟩ = false := by decide
    simp only [findRootsLoop, h1, h2, h3, Bool.not_false, if_true]
    exact ih _

/-- C12, the code at the failing input: started in the directory `/a`, which
holds `BUILD` and no `.build/model`, `findRoots` never leaves its loop, however
many rounds it is given: the loop tests `path.isRoot()` and never moves `path`
to the parent directory.  In the root directory itself, without a cached model,
the loop ends and the function reaches its end without a `return`. -/
theorem findRoots_never_leaves_loop :
    Path.getCurrentDir Host.sourceTree = Outcome.returned ⟨"/a".toList⟩ ∧
    (∀ fuel, findRoots Host.sourceTree fuel = FindRoots.running) ∧
    findRoots (Host.failing 2 "/".toList) 1 = FindRoots.noReturn := by
  refine ⟨by decide, ?_, by decide⟩
  intro fuel
  have hc : Path.getCurrentDir Host.sourceTree = Outcome.returned ⟨"/a".toList⟩ := by decide
  simp only [findRoots, hc]
  exact findRootsLoop_sourceTree fuel _

/-! ## Hard properties -/

theorem BuildModel.setProperty_soft_keeps {m : BuildModel} {n v : List Char}
    (h : m.property n = some (v, true)) (name value : List Char) :
    (m.setProperty name value false).property n = some (v, true) := by
  unfold BuildModel.setProperty
  simp only [Bool.false_eq_true, if_false]
  by_cases hn : n = name
  · subst hn
    simp only [h]
  · cases hp : m.property name with
    | none => simp [hn, h]
    | some e =>
      obtain ⟨w, hard⟩ := e
      cases hard
      · simp [hn, h]
      · exact h

theorem BuildModel.clearProperty_soft_keeps {m : BuildModel} {n v : List Char}
    (h : m.property n = some (v, true)) (name : List Char) :
    (m.clearProperty name false).property n = some (v, true) := by
  unfold BuildModel.clearProperty
  simp only [Bool.false_eq_true, if_false]
  by_cases hn : n = name
  · subst hn
    simp only [h]
  · cases hp : m.property name with
    | none => simp [hn, h]
    | some e =>
      obtain ⟨w, hard⟩ := e
      cases hard
      · simp [hn, h]
      · exact h

theorem BuildModel.resolve_keeps {n v : List Char} (derived : List (List Char × List Char)) :
    ∀ {m : BuildModel}, m.property n = some (v, true) →
      (m.resolve derived).property n = some (v, true) := by
  induction derived with
  | nil => intro m h; exact h
  | cons d rest ih =>
    intro m h
    exact ih (BuildModel.setProperty_soft_keeps h d.1 d.2)

theorem BuildModel.call_keeps {m : BuildModel} {n v : List Char}
    (h : m.property n = some (v, true)) (c : PropertyCall) (hc : c.isHardOn n = false) :
    (m.call c).property n = some (v, true) := by
  cases c with
  | setProperty name value hard =>
    cases hard
    · exact BuildModel.setProperty_soft_keeps h name value
    · have hne : ¬ name = n := by simpa [PropertyCall.isHardOn] using hc
      have hne2 : ¬ n = name := fun e => hne e.symm
      simp [BuildModel.call, BuildModel.setProperty, hne2, h]
  | clearProperty name hard =>
    cases hard
    · exact BuildModel.clearProperty_soft_keeps h name
    · have hne : ¬ name = n := by simpa [PropertyCall.isHardOn] using hc
      have hne2 : ¬ n = name := fun e => hne e.symm
      simp [BuildModel.call, BuildModel.clearProperty, hne2, h]
  | resolve derived => exact BuildModel.resolve_keeps derived h

/-- C11: after `setProperty(n, v, hard=true)`, whatever the model held before,
the value of `n` is `v`, and it is still `v`, and hard, after every sequence of
calls of `resolve()`, `setProperty` and `clearProperty` none of which is a hard
`setProperty` or a hard `clearProperty` of `n`. -/
theorem hard_property_kept (m : BuildModel) (n v : List Char) (calls : List PropertyCall)
    (h : ∀ c ∈ calls, c.isHardOn n = false) :
    (m.setProperty n v true).value n = some v ∧
    (calls.foldl BuildModel.call (m.setProperty n v true)).property n = some (v, true) ∧
    (calls.foldl BuildModel.call (m.setProperty n v true)).value n = some v := by
  have h0 : (m.setProperty n v true).property n = some (v, true) := by
    simp [BuildModel.setProperty]
  have key : ∀ (calls : List PropertyCall) (m1 : BuildModel),
      m1.property n = some (v, true) → (∀ c ∈ calls, c.isHardOn n = false) →
      (calls.foldl BuildModel.call m1).property n = some (v, true) := by
    intro calls
    induction calls with
    | nil => intro m1 h1 _; exact h1
    | cons c rest ih =>
      intro m1 h1 hall
      exact ih (m1.call c)
        (BuildModel.call_keeps h1 c (hall c (List.mem_cons_self _ _)))
        (fun c1 hc1 => hall c1 (List.mem_cons_of_mem _ hc1))
  have h1 := key calls _ h0 h
  refine ⟨by simp [BuildModel.value, h0], h1, by simp [BuildModel.value, h1]⟩

/-- C11 for `-Dfoo=1` followed by a non-hard clear, a script-derived default
`foo=2` set by `resolve()` and a non-hard `setProperty(foo, 3)`: `foo` is still
1. -/
theorem hard_property_kept_witness :
    ([PropertyCall.clearProperty "foo".toList false,
      PropertyCall.resolve [("foo".toList, "2".toList)],
      PropertyCall.setProperty "foo".toList "3".toList false].foldl BuildModel.call
        (BuildModel.init.setProperty "foo".toList "1".toList true)).value "foo".toList
      = some "1".toList :=
  (hard_property_kept BuildModel.init "foo".toList "1".toList
    [PropertyCall.clearProperty "foo".toList false,
      PropertyCall.resolve [("foo".toList, "2".toList)],
      PropertyCall.setProperty "foo".toList "3".toList false]
    (by decide)).2.2

/-! ## Normalisation of paths -/

/-- C21, the code at the failing inputs: `Path("a//")` holds "a/" and
`Path("a").push_back("b//")` holds "a/b/", which end with the separator and are
not root paths, and `Path("///")` holds "//": `appendNormalisedPath` copies
every slash after the first character and removes one trailing slash only. -/
theorem trailing_slash_kept :
    (Path.ofString "a//".toList).str = "a/".toList ∧
    (Path.ofString "a//".toList).isRoot = false ∧
    ((Path.ofString "a".toList).push_back "b//".toList).str = "a/b/".toList ∧
    ((Path.ofString "a".toList).push_back "b//".toList).isRoot = false ∧
    (Path.ofString "///".toList).str = "//".toList ∧
    (Path.ofString "///".toList).isRoot = false := by
  decide

/-! ## The runnable list after a completion -/

/-- C22, the code at the failing inputs.  After `queueJob(a)`,
`queueJob(b, {a})`, `dequeueJob()` and `jobCompleted(a)`, all within their
preconditions, the runnable list holds the job of `a` (address 0), which is
deleted and is the job of no queued task, and `a` is not queued.  When
`addDependency(b, a)` is called as well before `a` is handed out, the
runnable list ends as that deleted job twice while `size()` is 1, so
`getRunnableCount()` exceeds `size()`. -/
theorem runnable_holds_completed_job :
    (∃ (q : DependencyQueue Target) (h : History), Reach q h ∧
      q.runnable = [0] ∧ q.deref 0 = none ∧ q.isQueued Target.a = false ∧
      ∀ t, q.getJob t ≠ some 0) ∧
    (∃ (q : DependencyQueue Target) (h : History), Reach q h ∧
      q.runnable = [0, 0] ∧ q.size = 1 ∧ ¬ q.getRunnableCount ≤ q.size) := by
  constructor
  · refine ⟨⟨[none, some ⟨Target.b, [], []⟩], [(Target.b, 1)], [0]⟩,
      ⟨[0, 0], [0], [(1, 0)], [0]⟩, ?_, rfl, rfl, rfl, ?_⟩
    · exact Reach.jobCompleted Target.a 0
        (Reach.dequeueJob Target.a 0
          (Reach.queueJobDeps Target.b [Target.a]
            (Reach.queueJob Target.a Reach.ctor (by decide)) (by decide) (by decide)
            (by decide : _ = some (⟨[some ⟨Target.a, [], [1]⟩, some ⟨Target.b, [0], []⟩],
              [(Target.a, 0), (Target.b, 1)], [0]⟩ : DependencyQueue Target)))
          (by decide) (by decide)
          (by decide : _ = some (Target.a,
            (⟨[some ⟨Target.a, [], [1]⟩, some ⟨Target.b, [0], []⟩],
              [(Target.a, 0), (Target.b, 1)], []⟩ : DependencyQueue Target))))
        (by decide) (by decide) (by decide)
    · intro t; cases t <;> decide
  · refine ⟨⟨[none, some ⟨Target.b, [], []⟩], [(Target.b, 1)], [0, 0]⟩,
      ⟨[0, 0, 0], [0], [(1, 0), (1, 0)], [0]⟩, ?_, rfl, rfl, by decide⟩
    exact Reach.jobCompleted Target.a 0
      (Reach.dequeueJob Target.a 0
        (Reach.addDependency Target.b Target.a 1 0
          (Reach.queueJobDeps Target.b [Target.a]
            (Reach.queueJob Target.a Reach.ctor (by decide)) (by decide) (by decide)
            (by decide : _ = some (⟨[some ⟨Target.a, [], [1]⟩, some ⟨Target.b, [0], []⟩],
              [(Target.a, 0), (Target.b, 1)], [0]⟩ : DependencyQueue Target)))
          (by decide) (by decide)
          (by decide : _ = some (⟨[some ⟨Target.a, [], [1, 1]⟩, some ⟨Target.b, [0], []⟩],
            [(Target.a, 0), (Target.b, 1)], [0]⟩ : DependencyQueue Target)))
        (by decide) (by decide)
        (by decide : _ = some (Target.a,
          (⟨[some ⟨Target.a, [], [1, 1]⟩, some ⟨Target.b, [0], []⟩],
            [(Target.a, 0), (Target.b, 1)], []⟩ : DependencyQueue Target))))
      (by decide) (by decide) (by decide)

/-! ## Removing the last component -/

theorem Path.findLastFrom_lt (c : Char) (s : List Char) :
    ∀ (i : Nat) (acc : Option Nat) (idx : Nat),
      Path.findLastFrom c s i acc = some idx →
      acc = some idx ∨ idx < i + s.length := by
  induction s with
  | nil =>
    intro i acc idx h
    exact Or.inl h
  | cons x rest ih =>
    intro i acc idx h
    simp only [Path.findLastFrom] at h
    rcases ih (i + 1) _ idx h with e | e
    · split_ifs at e with hx
      · right
        simp only [Option.some.injEq] at e
        simp only [List.length_cons]
        omega
      · exact Or.inl e
    · right
      simp only [List.length_cons]
      omega

theorem Path.find_last_of_lt {s : List Char} {c : Char} {idx : Nat}
    (h : Path.find_last_of s c = some idx) : idx < s.length := by
  rcases Path.findLastFrom_lt c s 0 none idx h with e | e
  · exact absurd e (by simp)
  · simpa using e

theorem Path.erase_of_le {s : List Char} {index : Nat} (h : index ≤ s.length) :
    Path.erase s index = Outcome.returned (s.take index) := by
  simp [Path.erase, Nat.not_lt.2 h]

/-- C23: for every path, `pop_back()` returns and leaves in the path exactly
the string that `dirname()` gave before the call. -/
theorem pop_back_eq_dirname (p : Path) :
    p.pop_back = Outcome.returned ⟨p.dirname⟩ ∧
    (p.pop_back.map Path.str) = Outcome.returned p.dirname := by
  have key : p.pop_back = Outcome.returned ⟨p.dirname⟩ := by
    unfold Path.pop_back Path.dirname
    cases hf : Path.find_last_of p.name Path.Separator with
    | none =>
      simp only
      split_ifs with hv
      · have hlen : 2 ≤ p.name.length := by
          simp only [Path.hasVolumePrefix, Bool.and_eq_true, decide_eq_true_eq] at hv
          exact hv.1.1
        rw [Path.erase_of_le hlen]; rfl
      · rfl
    | some idx =>
      have hlt := Path.find_last_of_lt hf
      simp only
      split_ifs with hc
      · rw [Path.erase_of_le (Nat.succ_le_of_lt hlt)]; rfl
      · rw [Path.erase_of_le (Nat.le_of_lt hlt)]; rfl
  exact ⟨key, by rw [key]; rfl⟩

end fabr
